import Mathlib

/-!
# ReleaseCompass — verification of the Milestone Dependency & Risk Engine

Shallow embedding of the milestone data model (`src/shared.ts`), the
dependency engine (`src/dependency-engine.ts`), the financial engine
(`src/financial-engine.ts`) and the milestone templates / generators
(`src/client/components/MilestoneTemplates.tsx` part of `ProjectModal.tsx`).

Modelling conventions:
* JS `Date` values are modelled by their `getTime()` timestamp, as a
  rational number (JS numbers are modelled by `ℚ`).
* The engine's `Map<string, Milestone>` is modelled by the underlying
  `List Milestone` of its entries; theorems that need key uniqueness take a
  `Nodup` hypothesis on the ids.
* Mutable `Set`/array accumulators are threaded explicitly through the
  recursions; the recursive `cascadeUpdate` / `hasPath` helpers are modelled
  with an explicit work stack, which performs the identical depth-first
  visit order.
-/

namespace ReleaseCompass

inductive RiskLevel where
  | low
  | medium
  | high
deriving DecidableEq, Repr

inductive MStatus where
  | planned
  | inProgress
  | completed
  | overdue
deriving DecidableEq, Repr

inductive MCategory where
  | recording
  | production
  | marketing
  | distribution
  | legal
  | other
deriving DecidableEq, Repr

/-- `Milestone` from `src/shared.ts`.  `date` is the `getTime()` timestamp.
`radialPosition` stores the coefficient of `π` (the source value is
`(index / templates.length) * Math.PI * 2`; we store everything except the
transcendental factor `π`, which no claim depends on). -/
structure Milestone where
  id : String
  title : String
  date : ℚ
  budget : ℚ
  actualCost : ℚ
  riskLevel : RiskLevel
  status : MStatus
  dependencies : List String
  category : MCategory
  notes : Option String := none
  timelinePosition : ℚ := 0
  radialPosition : ℚ := 0
deriving DecidableEq, Repr

/-- `DependencyUpdate` from `src/dependency-engine.ts`. -/
structure DependencyUpdate where
  milestoneId : String
  newDate : ℚ
  reason : String
deriving DecidableEq, Repr

/-- `this.milestones.get(mid)` on the engine's map. -/
def findMilestone (ms : List Milestone) (mid : String) : Option Milestone :=
  ms.find? (fun m => m.id = mid)

/-- Ids present in the milestone map, as a finite set (used for termination
measures of the traversals). -/
def idsFinset (ms : List Milestone) : Finset String :=
  (ms.map (fun m => m.id)).toFinset

/-- `DependencyEngine.findDependentMilestones`: ids of all milestones whose
`dependencies` include `milestoneId`, in map iteration order. -/
def findDependentMilestones (ms : List Milestone) (milestoneId : String) : List String :=
  (ms.filter (fun m => milestoneId ∈ m.dependencies)).map (fun m => m.id)

/-- The recursive `cascadeUpdate` procedure (visited-guarded depth-first
traversal pushing one `DependencyUpdate` per newly visited milestone),
modelled with an explicit work stack: visiting `mid` and then folding
`cascadeUpdate` over its dependents before the remaining work is exactly
processing the stack `dependents ++ rest`. -/
def cascadeDFS (ms : List Milestone) (dateDiff : ℚ) :
    List String → List DependencyUpdate → Finset String →
      List DependencyUpdate × Finset String
  | [], updates, visited => (updates, visited)
  | mid :: rest, updates, visited =>
    if h : mid ∈ visited then
      cascadeDFS ms dateDiff rest updates visited
    else
      match hfind : findMilestone ms mid with
      | none => cascadeDFS ms dateDiff rest updates (insert mid visited)
      | some m =>
        cascadeDFS ms dateDiff (findDependentMilestones ms mid ++ rest)
          (updates ++ [⟨mid, m.date + dateDiff, "Dependency cascade"⟩])
          (insert mid visited)
termination_by stack _ visited =>
  ((idsFinset ms \ visited).card * (ms.length + 1) + stack.length)
decreasing_by
  · exact Nat.add_lt_add_left (Nat.lt_succ_self _) _
  · have hmid : mid ∉ idsFinset ms := by
      intro hmem
      simp only [idsFinset, List.mem_toFinset, List.mem_map] at hmem
      obtain ⟨m, hm, hid⟩ := hmem
      have := List.find?_eq_none.mp hfind m hm
      simp [hid] at this
    have hset : idsFinset ms \ insert mid visited = idsFinset ms \ visited := by
      ext x
      simp only [Finset.mem_sdiff, Finset.mem_insert]
      constructor
      · rintro ⟨hx, hnot⟩
        exact ⟨hx, fun hx2 => hnot (Or.inr hx2)⟩
      · rintro ⟨hx, hnot⟩
        refine ⟨hx, ?_⟩
        rintro (rfl | hx2)
        · exact hmid hx
        · exact hnot hx2
    rw [hset]
    exact Nat.add_lt_add_left (Nat.lt_succ_self _) _
  · have hmid : mid ∈ idsFinset ms := by
      have hmem := List.mem_of_find?_eq_some hfind
      have hp := List.find?_some hfind
      simp only [decide_eq_true_eq] at hp
      simp only [idsFinset, List.mem_toFinset, List.mem_map]
      exact ⟨m, hmem, hp⟩
    have hmidv : mid ∈ idsFinset ms \ visited := Finset.mem_sdiff.mpr ⟨hmid, h⟩
    have hcard : (idsFinset ms \ insert mid visited).card + 1
        = (idsFinset ms \ visited).card := by
      have hset : idsFinset ms \ insert mid visited
          = (idsFinset ms \ visited).erase mid := by
        ext x
        simp only [Finset.mem_sdiff, Finset.mem_insert, Finset.mem_erase]
        tauto
      rw [hset]
      exact Finset.card_erase_add_one hmidv
    have hmul : (idsFinset ms \ insert mid visited).card * (ms.length + 1)
          + (ms.length + 1)
        = (idsFinset ms \ visited).card * (ms.length + 1) := by
      rw [← hcard]
      ring
    have hdeps : (findDependentMilestones ms mid).length ≤ ms.length := by
      simp only [findDependentMilestones, List.length_map]
      exact List.length_filter_le _ _
    simp only [List.length_append, List.length_cons]
    omega

/-- `DependencyEngine.calculateCascadingUpdates`. -/
def calculateCascadingUpdates (ms : List Milestone) (changedMilestoneId : String)
    (newDate : ℚ) : List DependencyUpdate :=
  match findMilestone ms changedMilestoneId with
  | none => []
  | some milestone =>
    (cascadeDFS ms (newDate - milestone.date)
      (findDependentMilestones ms changedMilestoneId) [] ∅).1

/-- Result record of `validateDependencyConstraints`. -/
structure ValidationResult where
  valid : Bool
  violations : List String
deriving DecidableEq, Repr

/-- `DependencyEngine.validateDependencyConstraints`: the two `forEach`
loops pushing violation strings are modelled by `filterMap`s. -/
def validateDependencyConstraints (ms : List Milestone) (milestoneId : String)
    (newDate : ℚ) : ValidationResult :=
  match findMilestone ms milestoneId with
  | none => ⟨false, ["Milestone not found"]⟩
  | some milestone =>
    let depViolations := milestone.dependencies.filterMap (fun depId =>
      match findMilestone ms depId with
      | some dependency =>
        if newDate < dependency.date then
          some ("Cannot schedule \"" ++ milestone.title ++
            "\" before its dependency \"" ++ dependency.title ++ "\"")
        else none
      | none => none)
    let dependentViolations :=
      (findDependentMilestones ms milestoneId).filterMap (fun depId =>
        match findMilestone ms depId with
        | some dependent =>
          if dependent.date < newDate then
            some ("Moving \"" ++ milestone.title ++
              "\" would conflict with dependent milestone \"" ++
              dependent.title ++ "\"")
          else none
        | none => none)
    let violations := depViolations ++ dependentViolations
    ⟨violations.length == 0, violations⟩

/-- The recursive `hasPath` helper (reachability along `dependencies` edges
with a shared visited set and early `return true`), modelled with an
explicit work stack: trying `hasPath` on each dependency in turn with the
shared mutable set is exactly processing the stack `dependencies ++ rest`. -/
def hasPathDFS (ms : List Milestone) (targetId : String) :
    List String → Finset String → Bool × Finset String
  | [], visited => (false, visited)
  | sourceId :: rest, visited =>
    if sourceId = targetId then (true, visited)
    else if h : sourceId ∈ visited then hasPathDFS ms targetId rest visited
    else
      match hfind : findMilestone ms sourceId with
      | none => hasPathDFS ms targetId rest (insert sourceId visited)
      | some m =>
        hasPathDFS ms targetId (m.dependencies ++ rest) (insert sourceId visited)
termination_by stack visited =>
  ((idsFinset ms \ visited).card, stack.length)
decreasing_by
  · exact Prod.Lex.right _ (Nat.lt_succ_self _)
  · have hmid : sourceId ∉ idsFinset ms := by
      intro hmem
      simp only [idsFinset, List.mem_toFinset, List.mem_map] at hmem
      obtain ⟨m, hm, hid⟩ := hmem
      have := List.find?_eq_none.mp hfind m hm
      simp [hid] at this
    have hset : idsFinset ms \ insert sourceId visited = idsFinset ms \ visited := by
      ext x
      simp only [Finset.mem_sdiff, Finset.mem_insert]
      constructor
      · rintro ⟨hx, hnot⟩
        exact ⟨hx, fun hx2 => hnot (Or.inr hx2)⟩
      · rintro ⟨hx, hnot⟩
        refine ⟨hx, ?_⟩
        rintro (rfl | hx2)
        · exact hmid hx
        · exact hnot hx2
    rw [hset]
    exact Prod.Lex.right _ (Nat.lt_succ_self _)
  · have hmid : sourceId ∈ idsFinset ms := by
      have hmem := List.mem_of_find?_eq_some hfind
      have hp := List.find?_some hfind
      simp only [decide_eq_true_eq] at hp
      simp only [idsFinset, List.mem_toFinset, List.mem_map]
      exact ⟨m, hmem, hp⟩
    have hmidv : sourceId ∈ idsFinset ms \ visited := Finset.mem_sdiff.mpr ⟨hmid, h⟩
    have hcard : (idsFinset ms \ insert sourceId visited).card
        < (idsFinset ms \ visited).card := by
      have hset : idsFinset ms \ insert sourceId visited
          = (idsFinset ms \ visited).erase sourceId := by
        ext x
        simp only [Finset.mem_sdiff, Finset.mem_insert, Finset.mem_erase]
        tauto
      rw [hset]
      exact Finset.card_erase_lt_of_mem hmidv
    exact Prod.Lex.left _ _ hcard

/-- `DependencyEngine.wouldCreateCycle`: checks whether a path from `toId`
to `fromId` already exists through `dependencies` edges. -/
def wouldCreateCycle (ms : List Milestone) (fromId toId : String) : Bool :=
  (hasPathDFS ms fromId [toId] ∅).1

mutual

/-- `DependencyEngine.findLongestPath`: longest dependency chain from
`milestoneId`, walking backward through `dependencies` edges.  The source
mutates the caller's `visited` set only by adding `milestoneId` itself
(recursive calls receive fresh copies via `new Set(visited)`), so the set
is a pure parameter here; the caller mirrors the single `add`. -/
def findLongestPath (ms : List Milestone) (milestoneId : String)
    (visited : Finset String) : List String :=
  if hniv : milestoneId ∈ visited then []
  else
    match hfind : findMilestone ms milestoneId with
    | none => []
    | some m =>
      milestoneId ::
        longestSubPath ms m.dependencies (insert milestoneId visited) []
termination_by ((idsFinset ms \ visited).card, 0)
decreasing_by
  apply Prod.Lex.left
  have hmid : milestoneId ∈ idsFinset ms := by
    have hmem := List.mem_of_find?_eq_some hfind
    have hp := List.find?_some hfind
    simp only [decide_eq_true_eq] at hp
    simp only [idsFinset, List.mem_toFinset, List.mem_map]
    exact ⟨m, hmem, hp⟩
  have hmidv : milestoneId ∈ idsFinset ms \ visited :=
    Finset.mem_sdiff.mpr ⟨hmid, hniv⟩
  have hset : idsFinset ms \ insert milestoneId visited
      = (idsFinset ms \ visited).erase milestoneId := by
    ext x
    simp only [Finset.mem_sdiff, Finset.mem_insert, Finset.mem_erase]
    tauto
  rw [hset]
  exact Finset.card_erase_lt_of_mem hmidv

/-- The dependency loop of `findLongestPath` (accumulator `best`, a
strictly longer sub-path replaces it, ties keep the earlier one). -/
def longestSubPath (ms : List Milestone) (deps : List String)
    (visited : Finset String) (best : List String) : List String :=
  match deps with
  | [] => best
  | depId :: rest =>
    let subPath := findLongestPath ms depId visited
    longestSubPath ms rest visited
      (if best.length < subPath.length then subPath else best)
termination_by ((idsFinset ms \ visited).card, deps.length + 1)
decreasing_by
  · apply Prod.Lex.right
    simp only [List.length_cons]
    omega
  · apply Prod.Lex.right
    simp only [List.length_cons]
    omega

end

/-- The `endNodes.forEach` loop of `getCriticalPath`: `visited` is the
shared set threaded through the `findLongestPath` calls, which add exactly
their root node when it is unvisited and present in the map; `visited'`
mirrors that single mutation. -/
def getCriticalPathAux (ms : List Milestone) :
    List String → Finset String → List String → List String
  | [], _, longestPath => longestPath
  | nodeId :: rest, visited, longestPath =>
    let path := findLongestPath ms nodeId visited
    let visited' :=
      if nodeId ∈ visited then visited
      else
        match findMilestone ms nodeId with
        | none => visited
        | some _ => insert nodeId visited
    getCriticalPathAux ms rest visited'
      (if longestPath.length < path.length then path else longestPath)

/-- `DependencyEngine.getCriticalPath`. -/
def getCriticalPath (ms : List Milestone) : List String :=
  let endNodes := (ms.map (fun m => m.id)).filter
    (fun mid => (findDependentMilestones ms mid).length == 0)
  (getCriticalPathAux ms endNodes ∅ []).reverse

/-- A direct dependency edge of the milestone set: `Edge ms a b` holds when
the milestone with id `a` lists `b` among its `dependencies`. -/
def Edge (ms : List Milestone) (a b : String) : Prop :=
  ∃ m ∈ ms, m.id = a ∧ b ∈ m.dependencies

/-- `y` is a direct dependent of `x`: `y`'s dependencies contain `x`. -/
def DependentStep (ms : List Milestone) (x y : String) : Prop :=
  Edge ms y x

/-- `y` is transitively dependent on `x` (at least one dependent step). -/
def TransDependent (ms : List Milestone) (x y : String) : Prop :=
  Relation.TransGen (DependentStep ms) x y

/-- Reachability along `dependencies` edges (zero or more steps). -/
def Reaches (ms : List Milestone) (x y : String) : Prop :=
  Relation.ReflTransGen (Edge ms) x y

/-- The dependency relation has no cycle. -/
def AcyclicDeps (ms : List Milestone) : Prop :=
  ∀ x, ¬ Relation.TransGen (Edge ms) x x

/-- Every dependency reference resolves to a milestone of the set. -/
def NoDanglingDeps (ms : List Milestone) : Prop :=
  ∀ m ∈ ms, ∀ d ∈ m.dependencies, d ∈ ms.map (fun mm => mm.id)

/-! ## Financial engine (`src/financial-engine.ts`) -/

inductive ProjectType where
  | single
  | ep
  | album
deriving DecidableEq, Repr

/-- `FinancialEngine.PROJECT_BUDGETS`. -/
def PROJECT_BUDGETS : ProjectType → ℚ
  | .single => 1500
  | .ep => 6500
  | .album => 25000

/-- One entry of `FinancialEngine.COMPRESSION_LEVELS`. -/
structure CompressionLevel where
  threshold : ℚ
  impact : ℚ
deriving DecidableEq, Repr

def COMPRESSION_LEVELS_mild : CompressionLevel := ⟨0.85, 0.05⟩

def COMPRESSION_LEVELS_moderate : CompressionLevel := ⟨0.70, 0.15⟩

def COMPRESSION_LEVELS_severe : CompressionLevel := ⟨0.50, 0.30⟩

/-- `FinancialEngine.calculateProjectedOverrun`. -/
def calculateProjectedOverrun (ms : List Milestone) : ℚ :=
  let completedMilestones := ms.filter (fun m => m.status = MStatus.completed)
  let inProgressMilestones := ms.filter (fun m => m.status = MStatus.inProgress)
  let plannedMilestones := ms.filter (fun m => m.status = MStatus.planned)
  let overrunRate : ℚ :=
    if completedMilestones.length > 0 then
      (completedMilestones.foldl (fun sum m =>
        let overrun := m.actualCost - m.budget
        sum + (if overrun > 0 then overrun / m.budget else 0)) 0)
        / completedMilestones.length
    else 0
  let projectedInProgress := inProgressMilestones.foldl (fun sum m =>
    let projected := m.budget * (1 + overrunRate)
    sum + max (projected - m.budget) (m.actualCost - m.budget)) 0
  let projectedPlanned := plannedMilestones.foldl (fun sum m =>
    sum + m.budget * overrunRate) 0
  let actualOverrun := completedMilestones.foldl (fun sum m =>
    sum + max 0 (m.actualCost - m.budget)) 0
  actualOverrun + projectedInProgress + projectedPlanned

/-- The projected-overrun formula exactly as the specification words it:
realized overrun of completed milestones, plus
`max(budget × overrunRate, actualCost − budget)` over in-progress ones,
plus `budget × overrunRate` over planned ones, with `overrunRate` the mean
over completed milestones of `(actualCost − budget)/budget` when
`actualCost > budget` and `0` otherwise (`0` with no completed milestones). -/
def specOverrunRate (ms : List Milestone) : ℚ :=
  let completed := ms.filter (fun m => m.status = MStatus.completed)
  if completed.length = 0 then 0
  else
    ((completed.map (fun m =>
      if m.budget < m.actualCost then (m.actualCost - m.budget) / m.budget
      else 0)).sum) / completed.length

/-- Specification-side statement of `calculateProjectedOverrun` (see
`specOverrunRate`). -/
def specProjectedOverrun (ms : List Milestone) : ℚ :=
  let completed := ms.filter (fun m => m.status = MStatus.completed)
  let inProgress := ms.filter (fun m => m.status = MStatus.inProgress)
  let planned := ms.filter (fun m => m.status = MStatus.planned)
  let rate := specOverrunRate ms
  ((completed.map (fun m => max 0 (m.actualCost - m.budget))).sum)
    + ((inProgress.map (fun m =>
        max (m.budget * rate) (m.actualCost - m.budget))).sum)
    + ((planned.map (fun m => m.budget * rate)).sum)

/-- `FinancialEngine.calculateTimelineCompression`.  The JS
`sort((a, b) => a.date - b.date)` is modelled by a stable merge sort on the
date order. -/
def calculateTimelineCompression (ms : List Milestone) : ℚ :=
  if ms.length < 2 then 0
  else
    let sorted := ms.mergeSort (fun a b => a.date ≤ b.date)
    let gaps := (sorted.zip sorted.tail).map (fun p =>
      |p.2.date - p.1.date| / (1000 * 60 * 60 * 24))
    let totalDays := gaps.foldl (· + ·) 0
    let gapCount := gaps.length
    let avgDaysBetween : ℚ :=
      if gapCount > 0 then totalDays / gapCount else 30
    if 14 ≤ avgDaysBetween ∧ avgDaysBetween ≤ 30 then 10
    else if 7 ≤ avgDaysBetween ∧ avgDaysBetween < 14 then 50
    else if avgDaysBetween < 7 then 90
    else 30

/-- JavaScript `Math.round` (round half toward `+∞`). -/
def jsRound (q : ℚ) : ℤ :=
  ⌊q + 1 / 2⌋

/-- Per-milestone risk-level score used in `calculateRiskScore`. -/
def riskLevelScoreOf : RiskLevel → ℚ
  | .high => 100
  | .medium => 50
  | .low => 10

/-- `FinancialEngine.calculateRiskScore`.  The source accumulates a dead
`weightSum` variable that never influences the result; it is omitted. -/
def calculateRiskScore (ms : List Milestone) : ℤ :=
  if ms.length = 0 then 0
  else
    let riskLevelScore :=
      (ms.foldl (fun sum m => sum + riskLevelScoreOf m.riskLevel) 0) / ms.length
    let compressionScore := calculateTimelineCompression ms
    let totalBudget := ms.foldl (fun sum m => sum + m.budget) 0
    let totalActual := ms.foldl (fun sum m => sum + m.actualCost) 0
    let overrunPercent : ℚ :=
      if totalBudget > 0 then max 0 ((totalActual - totalBudget) / totalBudget)
      else 0
    let overrunScore := min 100 (overrunPercent * 200)
    let riskScore :=
      riskLevelScore * 0.4 + compressionScore * 0.3 + overrunScore * 0.3
    min 100 (jsRound riskScore)

/-- Result record of `calculateCompressionImpact`.  The `message` field's
`toLocaleString` number formatting is abstracted by `toString`. -/
structure CompressionImpact where
  level : String
  revenueImpact : ℚ
  message : String
deriving DecidableEq, Repr

/-- `FinancialEngine.calculateCompressionImpact`. -/
def calculateCompressionImpact (ms : List Milestone)
    (projectType : ProjectType) : CompressionImpact :=
  let compressionScore := calculateTimelineCompression ms
  let baseRevenue := PROJECT_BUDGETS projectType
  if COMPRESSION_LEVELS_severe.threshold * 100 ≤ compressionScore then
    let impact := baseRevenue * COMPRESSION_LEVELS_severe.impact
    ⟨"severe", impact,
      "Severe timeline compression detected. Potential revenue loss: $"
        ++ toString impact⟩
  else if COMPRESSION_LEVELS_moderate.threshold * 100 ≤ compressionScore then
    let impact := baseRevenue * COMPRESSION_LEVELS_moderate.impact
    ⟨"moderate", impact,
      "Moderate timeline compression. Potential revenue impact: $"
        ++ toString impact⟩
  else if COMPRESSION_LEVELS_mild.threshold * 100 ≤ compressionScore then
    let impact := baseRevenue * COMPRESSION_LEVELS_mild.impact
    ⟨"mild", impact,
      "Mild timeline compression. Minor revenue impact: $" ++ toString impact⟩
  else
    ⟨"optimal", 0,
      "Timeline spacing is optimal. No compression-related revenue impact."⟩

/-! ## Milestone templates and generator (`ProjectModal.tsx` part) -/

/-- `MilestoneTemplate`. -/
structure MilestoneTemplate where
  title : String
  daysBeforeRelease : ℚ
  budget : ℚ
  category : MCategory
  dependencies : List String := []
  riskLevel : RiskLevel
  description : Option String := none
deriving DecidableEq, Repr

/-- `MILESTONE_TEMPLATES`, copied from the source template tables. -/
def MILESTONE_TEMPLATES : ProjectType → List MilestoneTemplate
  | .single =>
    [⟨"Recording", 60, 500, .recording, [], .medium,
        some "Studio recording sessions for single track"⟩,
      ⟨"Mixing", 45, 300, .production, ["Recording"], .low,
        some "Professional mixing of recorded tracks"⟩,
      ⟨"Mastering", 30, 200, .production, ["Mixing"], .low,
        some "Final mastering for all platforms"⟩,
      ⟨"Artwork", 21, 300, .marketing, [], .low,
        some "Single cover artwork and design"⟩,
      ⟨"Release", 0, 200, .distribution, ["Mastering", "Artwork"], .low,
        some "Distribution to all streaming platforms"⟩]
  | .ep =>
    [⟨"Recording", 90, 2000, .recording, [], .medium,
        some "Studio sessions for 3-6 tracks"⟩,
      ⟨"Mixing", 60, 1200, .production, ["Recording"], .medium,
        some "Professional mixing of all EP tracks"⟩,
      ⟨"Mastering", 45, 800, .production, ["Mixing"], .low,
        some "EP mastering and sequencing"⟩,
      ⟨"Artwork", 30, 500, .marketing, [], .low,
        some "EP cover art and packaging design"⟩,
      ⟨"Distribution", 14, 500, .distribution, ["Mastering"], .low,
        some "Distribution setup and metadata"⟩,
      ⟨"Release", 0, 1500, .distribution, ["Distribution", "Artwork"], .medium,
        some "EP launch and promotion"⟩]
  | .album =>
    [⟨"Pre-production", 180, 2000, .production, [], .low,
        some "Song selection, arrangements, and demos"⟩,
      ⟨"Recording", 150, 8000, .recording, ["Pre-production"], .high,
        some "Full album recording sessions"⟩,
      ⟨"Mixing", 90, 4000, .production, ["Recording"], .medium,
        some "Professional mixing of all album tracks"⟩,
      ⟨"Mastering", 60, 2000, .production, ["Mixing"], .low,
        some "Album mastering and final sequencing"⟩,
      ⟨"Artwork", 45, 1500, .marketing, [], .medium,
        some "Album artwork, photography, and design"⟩,
      ⟨"Video", 30, 3000, .marketing, ["Mastering"], .high,
        some "Music video production for lead single"⟩,
      ⟨"PR Campaign", 21, 2500, .marketing, ["Artwork", "Video"], .medium,
        some "Press release, media outreach, interviews"⟩,
      ⟨"Distribution", 14, 1000, .distribution, ["Mastering", "Artwork"], .low,
        some "Physical and digital distribution setup"⟩,
      ⟨"Release", 0, 2000, .distribution, ["Distribution", "PR Campaign"], .medium,
        some "Album launch event and promotion"⟩]

/-- `title.toLowerCase().replace(/\s+/g, '-')` on the character list:
whitespace runs collapse to a single `-`; other characters are lowered. -/
def slugChars : List Char → List Char
  | [] => []
  | c :: rest =>
    if c.isWhitespace then
      '-' :: slugChars (rest.dropWhile (fun d => d.isWhitespace))
    else c.toLower :: slugChars rest
termination_by l => l.length
decreasing_by
  · have := (List.dropWhile_sublist (l := rest)
      (fun d : Char => d.isWhitespace)).length_le
    simp only [List.length_cons]
    omega
  · simp only [List.length_cons]
    omega

def slugify (s : String) : String :=
  String.mk (slugChars s.data)

/-- One step of the `templates.forEach` body of `generateMilestones`:
`index` is the running index, `depMap` the
template-title → generated-id map (latest binding first, like `Map.set`). -/
def genAux (projectId : String) (now : ℚ) (releaseDate : ℚ) (maxDays : ℚ)
    (total : ℕ) :
    List MilestoneTemplate → ℕ → List (String × String) → List Milestone
  | [], _, _ => []
  | template :: rest, index, depMap =>
    let milestoneId := projectId ++ "-" ++ slugify template.title ++ "-"
      ++ toString now ++ "-" ++ toString index
    let milestoneDate := releaseDate - template.daysBeforeRelease * 86400000
    let daysFromStart :=
      (milestoneDate - (releaseDate - maxDays * 86400000)) / 86400000
    let timelinePosition := daysFromStart / maxDays
    let radialPosition := ((index : ℚ) / total) * 2
    let dependencies := template.dependencies.filterMap (fun depTitle =>
      match depMap.lookup depTitle with
      | some depId => some depId
      | none => none)
    { id := milestoneId
      title := template.title
      date := milestoneDate
      budget := template.budget
      actualCost := 0
      riskLevel := template.riskLevel
      status := MStatus.planned
      dependencies := dependencies
      category := template.category
      notes := template.description
      timelinePosition := timelinePosition
      radialPosition := radialPosition }
      :: genAux projectId now releaseDate maxDays total rest (index + 1)
        ((template.title, milestoneId) :: depMap)

/-- `generateMilestones`.  `now` models the `Date.now()` call that is baked
into the generated ids. -/
def generateMilestones (projectType : ProjectType) (releaseDate : ℚ)
    (projectId : String) (now : ℚ) : List Milestone :=
  let templates := MILESTONE_TEMPLATES projectType
  let maxDays := (templates.map (fun t => t.daysBeforeRelease)).foldr max 0
  genAux projectId now releaseDate maxDays templates.length templates 0 []

/-- `calculateTimelineBounds`; `now` models `new Date()` in the empty
branch, the result is the `(start, end)` pair of timestamps. -/
def calculateTimelineBounds (now : ℚ) (ms : List Milestone) : ℚ × ℚ :=
  match ms.map (fun m => m.date) with
  | [] => (now, now + 180 * 86400000)
  | d :: ds =>
    let minDate := ds.foldl min d
    let maxDate := ds.foldl max d
    let padding := (maxDate - minDate) * 0.1
    (minDate - padding, maxDate + padding)

/-- The claim-side graph invariant for generated milestone lists: every
dependency id refers to a milestone generated strictly earlier in the list,
and that earlier milestone's date is at most the dependent's date. -/
def ForwardDeps (l : List Milestone) : Prop :=
  ∀ k, (hk : k < l.length) → ∀ d ∈ (l.get ⟨k, hk⟩).dependencies,
    ∃ j, ∃ hj : j < l.length, j < k ∧ (l.get ⟨j, hj⟩).id = d ∧
      (l.get ⟨j, hj⟩).date ≤ (l.get ⟨k, hk⟩).date

/-- Well-formedness of a template list relative to the already processed
prefix `earlier`: each template's named dependencies, where they match an
earlier template's title, point to a template at least as many days before
release (so resolved dependency edges never go forward in time). -/
def templatesOkayAux (earlier : List MilestoneTemplate) :
    List MilestoneTemplate → Bool
  | [] => true
  | t :: rest =>
    (earlier.all (fun e => t.dependencies.all (fun dt =>
        !(e.title == dt) || decide (t.daysBeforeRelease ≤ e.daysBeforeRelease))))
      && templatesOkayAux (earlier ++ [t]) rest

/-- Concrete two-milestone fixture used by witnesses: `b` depends on `a`. -/
def msA : Milestone :=
  { id := "a", title := "A", date := 0, budget := 100, actualCost := 0,
    riskLevel := RiskLevel.low, status := MStatus.completed,
    dependencies := [], category := MCategory.recording }

def msB : Milestone :=
  { id := "b", title := "B", date := 864000000, budget := 50, actualCost := 0,
    riskLevel := RiskLevel.medium, status := MStatus.planned,
    dependencies := ["a"], category := MCategory.production }

def msPair : List Milestone := [msA, msB]

/-! ## General lemmas about the embedded operations -/

lemma findMilestone_some {ms : List Milestone} {mid : String} {m : Milestone}
    (h : findMilestone ms mid = some m) : m ∈ ms ∧ m.id = mid := by
  refine ⟨List.mem_of_find?_eq_some h, ?_⟩
  have hp := List.find?_some h
  simpa using hp

lemma findMilestone_none {ms : List Milestone} {mid : String}
    (h : findMilestone ms mid = none) : ∀ m ∈ ms, m.id ≠ mid := by
  intro m hm
  have := List.find?_eq_none.mp h m hm
  simpa using this

lemma findMilestone_isSome {ms : List Milestone} {mid : String}
    (h : ∃ m ∈ ms, m.id = mid) : ∃ m, findMilestone ms mid = some m := by
  rcases h with ⟨m, hm, hid⟩
  cases hfind : findMilestone ms mid with
  | none => exact absurd hid (findMilestone_none hfind m hm)
  | some m' => exact ⟨m', rfl⟩

lemma findMilestone_eq_of_nodup {ms : List Milestone} {m : Milestone}
    (hnd : (ms.map (fun mm => mm.id)).Nodup) (hm : m ∈ ms) :
    findMilestone ms m.id = some m := by
  obtain ⟨m', hfind⟩ := findMilestone_isSome ⟨m, hm, rfl⟩
  obtain ⟨hm', hid'⟩ := findMilestone_some hfind
  have : m' = m := by
    have hinj := List.inj_on_of_nodup_map hnd
    exact hinj hm' hm hid'
  rw [hfind, this]

lemma mem_findDependentMilestones {ms : List Milestone} {x y : String} :
    y ∈ findDependentMilestones ms x ↔ DependentStep ms x y := by
  simp only [findDependentMilestones, List.mem_map, List.mem_filter,
    DependentStep, Edge, decide_eq_true_eq]
  constructor
  · rintro ⟨m, ⟨hm, hdep⟩, rfl⟩
    exact ⟨m, hm, rfl, hdep⟩
  · rintro ⟨m, hm, rfl, hdep⟩
    exact ⟨m, ⟨hm, hdep⟩, rfl⟩

lemma target_mem_ids_of_dependentStep {ms : List Milestone} {x y : String}
    (h : DependentStep ms x y) : ∃ m ∈ ms, m.id = y := by
  obtain ⟨m, hm, hid, _⟩ := h
  exact ⟨m, hm, hid⟩

lemma foldl_add_map {α : Type _} (f : α → ℚ) (l : List α) (init : ℚ) :
    l.foldl (fun s x => s + f x) init = init + (l.map f).sum := by
  induction l generalizing init with
  | nil => simp
  | cons x xs ih =>
    simp only [List.foldl_cons, List.map_cons, List.sum_cons, ih]
    ring

/-! ## C10: unknown milestone id — validation rejects, cascade is a no-op -/

/-- C10: for an id absent from the milestone set,
`validateDependencyConstraints` returns `valid = false` with the single
violation `"Milestone not found"`, while `calculateCascadingUpdates`
returns no updates at all. -/
theorem unknown_milestone_rejected (ms : List Milestone) (mid : String) (d : ℚ)
    (h : findMilestone ms mid = none) :
    validateDependencyConstraints ms mid d
        = ⟨false, ["Milestone not found"]⟩
      ∧ calculateCascadingUpdates ms mid d = [] := by
  constructor
  · simp [validateDependencyConstraints, h]
  · simp [calculateCascadingUpdates, h]

/-- Witness for C10 at a concrete input. -/
theorem unknown_milestone_rejected_witness :
    findMilestone [] "missing" = none
      ∧ validateDependencyConstraints [] "missing" 0
          = ⟨false, ["Milestone not found"]⟩
      ∧ calculateCascadingUpdates [] "missing" 0 = [] := by
  have h := unknown_milestone_rejected [] "missing" 0 rfl
  exact ⟨rfl, h.1, h.2⟩

/-! ## C5 / C9: risk score bounds, compression impact levels -/

lemma compression_values (ms : List Milestone) :
    calculateTimelineCompression ms = 0 ∨ calculateTimelineCompression ms = 10
      ∨ calculateTimelineCompression ms = 50
      ∨ calculateTimelineCompression ms = 90
      ∨ calculateTimelineCompression ms = 30 := by
  simp only [calculateTimelineCompression]
  split_ifs <;> simp

lemma compression_nonneg (ms : List Milestone) :
    0 ≤ calculateTimelineCompression ms := by
  rcases compression_values ms with h | h | h | h | h <;> rw [h] <;> norm_num

lemma compression_le_100 (ms : List Milestone) :
    calculateTimelineCompression ms ≤ 100 := by
  rcases compression_values ms with h | h | h | h | h <;> rw [h] <;> norm_num

lemma jsRound_nonneg {q : ℚ} (h : 0 ≤ q) : 0 ≤ jsRound q := by
  unfold jsRound
  rw [Int.floor_nonneg]
  linarith

lemma min100_jsRound_bounds (q : ℚ) (hq : 0 ≤ q) :
    0 ≤ min 100 (jsRound q) ∧ min 100 (jsRound q) ≤ 100 :=
  ⟨le_min (by norm_num) (jsRound_nonneg hq), min_le_left _ _⟩

/-- C5: the risk score is always within `[0, 100]`. -/
theorem riskScore_bounds (ms : List Milestone) :
    0 ≤ calculateRiskScore ms ∧ calculateRiskScore ms ≤ 100 := by
  simp only [calculateRiskScore]
  rcases eq_or_ne ms.length 0 with hlen | hlen
  · rw [if_pos hlen]
    norm_num
  · rw [if_neg hlen]
    apply min100_jsRound_bounds
    have h1 : (0:ℚ) ≤ (ms.foldl (fun sum m =>
        sum + riskLevelScoreOf m.riskLevel) 0) / ms.length := by
      apply div_nonneg
      · rw [foldl_add_map, zero_add]
        apply List.sum_nonneg
        intro x hx
        simp only [List.mem_map] at hx
        obtain ⟨m, _, rfl⟩ := hx
        cases m.riskLevel <;> simp [riskLevelScoreOf]
      · exact_mod_cast Nat.zero_le _
    have h2 := compression_nonneg ms
    have h3 : (0:ℚ) ≤ min 100 ((if
        ms.foldl (fun sum m => sum + m.budget) 0 > 0 then
          max 0 ((ms.foldl (fun sum m => sum + m.actualCost) 0
            - ms.foldl (fun sum m => sum + m.budget) 0)
            / ms.foldl (fun sum m => sum + m.budget) 0)
        else 0) * 200) := by
      apply le_min
      · norm_num
      · apply mul_nonneg _ (by norm_num)
        split_ifs
        · exact le_max_left _ _
        · exact le_refl 0
    linarith

/-- C9: the compression-impact level is always `severe` (with revenue
impact 30% of the project type's baseline budget) or `optimal` (with
revenue impact 0); the `moderate` and `mild` branches are unreachable. -/
theorem compressionImpact_severe_or_optimal (ms : List Milestone)
    (pt : ProjectType) :
    ((calculateCompressionImpact ms pt).level = "severe"
        ∧ (calculateCompressionImpact ms pt).revenueImpact
            = PROJECT_BUDGETS pt * (30 / 100))
      ∨ ((calculateCompressionImpact ms pt).level = "optimal"
        ∧ (calculateCompressionImpact ms pt).revenueImpact = 0) := by
  rcases compression_values ms with h | h | h | h | h <;>
    simp only [calculateCompressionImpact, COMPRESSION_LEVELS_severe,
      COMPRESSION_LEVELS_moderate, COMPRESSION_LEVELS_mild, h] <;>
    norm_num

/-! ## C6: projected overrun equals the specification formula -/

lemma overrun_shape (comp ip pl : List Milestone) (R : ℚ) :
    (comp.foldl (fun sum m => sum + max 0 (m.actualCost - m.budget)) 0)
        + (ip.foldl (fun sum m =>
            sum + max (m.budget * (1 + R) - m.budget)
              (m.actualCost - m.budget)) 0)
        + (pl.foldl (fun sum m => sum + m.budget * R) 0)
      = ((comp.map (fun m => max 0 (m.actualCost - m.budget))).sum)
        + ((ip.map (fun m =>
            max (m.budget * R) (m.actualCost - m.budget))).sum)
        + ((pl.map (fun m => m.budget * R)).sum) := by
  rw [foldl_add_map, foldl_add_map, foldl_add_map, zero_add, zero_add, zero_add]
  have h : List.map (fun m =>
        max (m.budget * (1 + R) - m.budget) (m.actualCost - m.budget)) ip
      = List.map (fun m => max (m.budget * R) (m.actualCost - m.budget)) ip := by
    apply List.map_congr_left
    intro m _
    have hb : m.budget * (1 + R) - m.budget = m.budget * R := by ring
    rw [hb]
  rw [h]

/-- C6: `calculateProjectedOverrun` computes exactly the specification's
formula (realized overrun of completed milestones, projected overrun of
in-progress and planned ones from the empirical overrun rate). -/
theorem projectedOverrun_eq_spec (ms : List Milestone) :
    calculateProjectedOverrun ms = specProjectedOverrun ms := by
  simp only [calculateProjectedOverrun, specProjectedOverrun, specOverrunRate]
  have hrate : (if (ms.filter (fun m => m.status = MStatus.completed)).length > 0
      then ((ms.filter (fun m => m.status = MStatus.completed)).foldl
          (fun sum m => sum +
            (if m.actualCost - m.budget > 0 then
              (m.actualCost - m.budget) / m.budget else 0)) 0)
        / ((ms.filter (fun m => m.status = MStatus.completed)).length : ℚ)
      else 0)
      = (if (ms.filter (fun m => m.status = MStatus.completed)).length = 0
        then 0
        else (((ms.filter (fun m => m.status = MStatus.completed)).map
            (fun m => if m.budget < m.actualCost then
              (m.actualCost - m.budget) / m.budget else 0)).sum)
          / ((ms.filter (fun m => m.status = MStatus.completed)).length : ℚ)) := by
    rcases Nat.eq_zero_or_pos
        (ms.filter (fun m => m.status = MStatus.completed)).length with hz | hp
    · simp [hz]
    · rw [if_pos hp, if_neg (Nat.pos_iff_ne_zero.mp hp), foldl_add_map, zero_add]
      congr 1
      exact congrArg List.sum
        (List.map_congr_left (fun m _ => if_congr sub_pos rfl rfl))
  rw [hrate]
  exact overrun_shape _ _ _ _

/-! ## C3: dependency-constraint validation -/

lemma length_filterMap_eq {α β : Type _} (f : α → Option β) (l : List α) :
    (l.filterMap f).length = l.countP (fun a => (f a).isSome) := by
  induction l with
  | nil => rfl
  | cons x xs ih =>
    cases hx : f x <;>
      simp [List.filterMap_cons, hx, ih, List.countP_cons]

/-- C3: `validateDependencyConstraints` returns `valid = false` exactly
when the proposed date is strictly before some dependency's date or
strictly after some dependent's date, and the violations list has one
entry per violated edge (all of them, not just the first). -/
theorem validateConstraints_spec (ms : List Milestone) (mid : String) (d : ℚ)
    (m : Milestone)
    (hnd : (ms.map (fun mm => mm.id)).Nodup)
    (h₀ : findMilestone ms mid = some m) :
    ((validateDependencyConstraints ms mid d).valid = false ↔
        (∃ depId ∈ m.dependencies, ∃ md ∈ ms, md.id = depId ∧ d < md.date)
          ∨ (∃ md ∈ ms, mid ∈ md.dependencies ∧ md.date < d))
      ∧ (validateDependencyConstraints ms mid d).violations.length
          = m.dependencies.countP (fun depId =>
              decide (∃ md ∈ ms, md.id = depId ∧ d < md.date))
            + ms.countP (fun md =>
                decide (mid ∈ md.dependencies ∧ md.date < d)) := by
  simp only [validateDependencyConstraints, h₀]
  have h1 : (m.dependencies.filterMap (fun depId =>
      match findMilestone ms depId with
      | some dependency =>
        if d < dependency.date then
          some ("Cannot schedule \"" ++ m.title ++
            "\" before its dependency \"" ++ dependency.title ++ "\"")
        else none
      | none => none)).length
      = m.dependencies.countP (fun depId =>
          decide (∃ md ∈ ms, md.id = depId ∧ d < md.date)) := by
    rw [length_filterMap_eq]
    apply List.countP_congr
    intro depId _
    cases hf : findMilestone ms depId with
    | none =>
      simp only [hf, Option.isSome_none, Bool.false_eq_true, false_iff,
        decide_eq_true_eq]
      rintro ⟨md, hmd, hid2, _⟩
      exact findMilestone_none hf md hmd hid2
    | some dep =>
      have hiff : (∃ md ∈ ms, md.id = depId ∧ d < md.date) ↔ d < dep.date := by
        constructor
        · rintro ⟨md, hmd, hid2, hlt⟩
          have hsame : findMilestone ms depId = some md := by
            rw [← hid2]
            exact findMilestone_eq_of_nodup hnd hmd
          rw [hf] at hsame
          cases hsame
          exact hlt
        · intro hlt
          exact ⟨dep, (findMilestone_some hf).1, (findMilestone_some hf).2, hlt⟩
      simp only [hf]
      split_ifs with hc <;> simp [hiff, hc]
  have h2 : ((findDependentMilestones ms mid).filterMap (fun depId =>
      match findMilestone ms depId with
      | some dependent =>
        if dependent.date < d then
          some ("Moving \"" ++ m.title ++
            "\" would conflict with dependent milestone \"" ++
            dependent.title ++ "\"")
        else none
      | none => none)).length
      = ms.countP (fun md => decide (mid ∈ md.dependencies ∧ md.date < d)) := by
    simp only [findDependentMilestones]
    rw [List.filterMap_map, length_filterMap_eq]
    have h2a : ∀ mm ∈ ms.filter (fun m2 => mid ∈ m2.dependencies),
        (((fun depId =>
          match findMilestone ms depId with
          | some dependent =>
            if dependent.date < d then
              some ("Moving \"" ++ m.title ++
                "\" would conflict with dependent milestone \"" ++
                dependent.title ++ "\"")
            else none
          | none => none) ∘ (fun m2 : Milestone => m2.id)) mm).isSome = true
          ↔ decide (mm.date < d) = true := by
      intro mm hmm
      have hmm2 : mm ∈ ms := (List.mem_filter.mp hmm).1
      have hfind := findMilestone_eq_of_nodup hnd hmm2
      simp only [Function.comp_apply, hfind]
      split_ifs with hc <;> simp [hc]
    rw [List.countP_congr h2a, List.countP_filter]
    apply List.countP_congr
    intro mm _
    simp only [Bool.and_eq_true, decide_eq_true_eq]
    tauto
  refine ⟨?_, ?_⟩
  · rw [List.length_append, h1, h2, beq_eq_false_iff_ne, ne_eq]
    constructor
    · intro hne
      rcases Nat.eq_zero_or_pos (m.dependencies.countP (fun depId =>
          decide (∃ md ∈ ms, md.id = depId ∧ d < md.date))) with hc1 | hc1
      · rcases Nat.eq_zero_or_pos (ms.countP (fun md : Milestone =>
            decide (mid ∈ md.dependencies ∧ md.date < d))) with hc2 | hc2
        · exact absurd (by omega) hne
        · right
          obtain ⟨md, hmd, hp⟩ := List.countP_pos.mp hc2
          exact ⟨md, hmd, of_decide_eq_true hp⟩
      · left
        obtain ⟨depId, hdep, hp⟩ := List.countP_pos.mp hc1
        obtain ⟨md, hmd, hid2, hlt⟩ := of_decide_eq_true hp
        exact ⟨depId, hdep, md, hmd, hid2, hlt⟩
    · intro hviol
      rcases hviol with ⟨depId, hdep, md, hmd, hid2, hlt⟩ | ⟨md, hmd, hdd, hlt⟩
      · have hpos : 0 < m.dependencies.countP (fun depId =>
            decide (∃ md ∈ ms, md.id = depId ∧ d < md.date)) :=
          List.countP_pos.mpr ⟨depId, hdep,
            decide_eq_true ⟨md, hmd, hid2, hlt⟩⟩
        omega
      · have hpos : 0 < ms.countP (fun md : Milestone =>
            decide (mid ∈ md.dependencies ∧ md.date < d)) :=
          List.countP_pos.mpr ⟨md, hmd, decide_eq_true ⟨hdd, hlt⟩⟩
        omega
  · rw [List.length_append, h1, h2]

/-- Witness for C3 at a concrete input (moving `b` before its dependency
`a` is rejected with exactly one violation). -/
theorem validateConstraints_spec_witness :
    (validateDependencyConstraints msPair "b" (-5)).valid = false
      ∧ (validateDependencyConstraints msPair "b" (-5)).violations.length = 1 := by
  have h := validateConstraints_spec msPair "b" (-5) msB (by decide) (by decide)
  constructor
  · exact h.1.mpr (Or.inl ⟨"a", by decide, msA, by decide, rfl, by norm_num [msA]⟩)
  · rw [h.2]
    decide

/-! ## C2: cycle detection via `wouldCreateCycle` -/

lemma edge_iff_of_find {ms : List Milestone} {s : String} {m : Milestone}
    (hnd : (ms.map (fun mm => mm.id)).Nodup)
    (hf : findMilestone ms s = some m) :
    ∀ y, Edge ms s y ↔ y ∈ m.dependencies := by
  intro y
  constructor
  · rintro ⟨m', hm', hid, hy⟩
    have h2 : findMilestone ms s = some m' := by
      rw [← hid]
      exact findMilestone_eq_of_nodup hnd hm'
    rw [hf] at h2
    cases h2
    exact hy
  · intro hy
    exact ⟨m, (findMilestone_some hf).1, (findMilestone_some hf).2, hy⟩

lemma edge_none {ms : List Milestone} {s : String}
    (hf : findMilestone ms s = none) : ∀ y, ¬ Edge ms s y := by
  rintro y ⟨m', hm', hid, _⟩
  exact findMilestone_none hf m' hm' hid

lemma hasPathDFS_nil (ms : List Milestone) (t : String) (v : Finset String) :
    hasPathDFS ms t [] v = (false, v) := by
  simp [hasPathDFS]

lemma hasPathDFS_cons_target (ms : List Milestone) (t : String)
    (rest : List String) (v : Finset String) :
    hasPathDFS ms t (t :: rest) v = (true, v) := by
  simp [hasPathDFS]

lemma hasPathDFS_cons_mem {ms : List Milestone} {t s : String}
    {rest : List String} {v : Finset String} (hne : ¬ s = t) (hv : s ∈ v) :
    hasPathDFS ms t (s :: rest) v = hasPathDFS ms t rest v := by
  simp [hasPathDFS, hne, hv]

lemma hasPathDFS_cons_none {ms : List Milestone} {t s : String}
    {rest : List String} {v : Finset String} (hne : ¬ s = t) (hv : s ∉ v)
    (hf : findMilestone ms s = none) :
    hasPathDFS ms t (s :: rest) v = hasPathDFS ms t rest (insert s v) := by
  simp only [hasPathDFS]
  rw [if_neg hne]
  rw [dif_neg hv]
  split
  · rfl
  · next m' heq =>
    rw [hf] at heq
    exact Option.noConfusion heq

lemma hasPathDFS_cons_some {ms : List Milestone} {t s : String} {m : Milestone}
    {rest : List String} {v : Finset String} (hne : ¬ s = t) (hv : s ∉ v)
    (hf : findMilestone ms s = some m) :
    hasPathDFS ms t (s :: rest) v
      = hasPathDFS ms t (m.dependencies ++ rest) (insert s v) := by
  simp only [hasPathDFS]
  rw [if_neg hne]
  rw [dif_neg hv]
  split
  · next heq =>
    rw [hf] at heq
    exact Option.noConfusion heq
  · next m' heq =>
    rw [hf] at heq
    injection heq with h2
    rw [h2]

lemma hasPathDFS_sound (ms : List Milestone) (t : String) :
    ∀ stack visited, (hasPathDFS ms t stack visited).1 = true →
      ∃ s ∈ stack, Reaches ms s t := by
  intro stack visited
  induction stack, visited using hasPathDFS.induct ms t with
  | case1 v =>
    intro h
    rw [hasPathDFS_nil] at h
    simp at h
  | case2 rest v =>
    intro _
    exact ⟨t, List.mem_cons_self _ _, Relation.ReflTransGen.refl⟩
  | case3 s rest v hne hv ih =>
    intro h
    rw [hasPathDFS_cons_mem hne hv] at h
    obtain ⟨w, hw, hr⟩ := ih h
    exact ⟨w, List.mem_cons_of_mem _ hw, hr⟩
  | case4 s rest v hne hv hf ih =>
    intro h
    rw [hasPathDFS_cons_none hne hv hf] at h
    obtain ⟨w, hw, hr⟩ := ih h
    exact ⟨w, List.mem_cons_of_mem _ hw, hr⟩
  | case5 s rest v hne hv m hf ih =>
    intro h
    rw [hasPathDFS_cons_some hne hv hf] at h
    obtain ⟨w, hw, hr⟩ := ih h
    rcases List.mem_append.mp hw with hw1 | hw2
    · refine ⟨s, List.mem_cons_self _ _, ?_⟩
      exact Relation.ReflTransGen.head
        ⟨m, (findMilestone_some hf).1, (findMilestone_some hf).2, hw1⟩ hr
    · exact ⟨w, List.mem_cons_of_mem _ hw2, hr⟩

lemma hasPathDFS_false_inv (ms : List Milestone) (t : String)
    (hnd : (ms.map (fun mm => mm.id)).Nodup) :
    ∀ stack visited,
      (hasPathDFS ms t stack visited).1 = false →
      (∀ x ∈ visited, ∀ y, Edge ms x y → y ∈ visited ∨ y ∈ stack) →
      t ∉ visited →
      (∀ s ∈ stack, s ∈ (hasPathDFS ms t stack visited).2)
        ∧ visited ⊆ (hasPathDFS ms t stack visited).2
        ∧ t ∉ (hasPathDFS ms t stack visited).2
        ∧ (∀ x ∈ (hasPathDFS ms t stack visited).2, ∀ y, Edge ms x y →
            y ∈ (hasPathDFS ms t stack visited).2) := by
  intro stack visited
  induction stack, visited using hasPathDFS.induct ms t with
  | case1 v =>
    intro _ hinv ht
    rw [hasPathDFS_nil]
    refine ⟨by simp, fun x hx => hx, ht, ?_⟩
    intro x hx y hxy
    rcases hinv x hx y hxy with h | h
    · exact h
    · simp at h
  | case2 rest v =>
    intro hfalse
    rw [hasPathDFS_cons_target] at hfalse
    simp at hfalse
  | case3 s rest v hne hv ih =>
    intro hfalse hinv ht
    rw [hasPathDFS_cons_mem hne hv] at hfalse ⊢
    have hinv' : ∀ x ∈ v, ∀ y, Edge ms x y → y ∈ v ∨ y ∈ rest := by
      intro x hx y hxy
      rcases hinv x hx y hxy with h | h
      · exact Or.inl h
      · rcases List.mem_cons.mp h with rfl | h2
        · exact Or.inl hv
        · exact Or.inr h2
    obtain ⟨h1, h2, h3, h4⟩ := ih hfalse hinv' ht
    refine ⟨?_, h2, h3, h4⟩
    intro w hw
    rcases List.mem_cons.mp hw with rfl | hw2
    · exact h2 hv
    · exact h1 w hw2
  | case4 s rest v hne hv hf ih =>
    intro hfalse hinv ht
    rw [hasPathDFS_cons_none hne hv hf] at hfalse ⊢
    have hinv' : ∀ x ∈ insert s v, ∀ y, Edge ms x y →
        y ∈ insert s v ∨ y ∈ rest := by
      intro x hx y hxy
      rcases Finset.mem_insert.mp hx with rfl | hx2
      · exact absurd hxy (edge_none hf y)
      · rcases hinv x hx2 y hxy with h | h
        · exact Or.inl (Finset.mem_insert_of_mem h)
        · rcases List.mem_cons.mp h with rfl | h2
          · exact Or.inl (Finset.mem_insert_self _ _)
          · exact Or.inr h2
    have ht' : t ∉ insert s v := by
      simp only [Finset.mem_insert]
      rintro (rfl | h2)
      · exact hne rfl
      · exact ht h2
    obtain ⟨h1, h2, h3, h4⟩ := ih hfalse hinv' ht'
    refine ⟨?_, ?_, h3, h4⟩
    · intro w hw
      rcases List.mem_cons.mp hw with rfl | hw2
      · exact h2 (Finset.mem_insert_self _ _)
      · exact h1 w hw2
    · exact fun x hx => h2 (Finset.mem_insert_of_mem hx)
  | case5 s rest v hne hv m hf ih =>
    intro hfalse hinv ht
    rw [hasPathDFS_cons_some hne hv hf] at hfalse ⊢
    have hinv' : ∀ x ∈ insert s v, ∀ y, Edge ms x y →
        y ∈ insert s v ∨ y ∈ m.dependencies ++ rest := by
      intro x hx y hxy
      rcases Finset.mem_insert.mp hx with rfl | hx2
      · exact Or.inr (List.mem_append_left _
          ((edge_iff_of_find hnd hf y).mp hxy))
      · rcases hinv x hx2 y hxy with h | h
        · exact Or.inl (Finset.mem_insert_of_mem h)
        · rcases List.mem_cons.mp h with rfl | h2
          · exact Or.inl (Finset.mem_insert_self _ _)
          · exact Or.inr (List.mem_append_right _ h2)
    have ht' : t ∉ insert s v := by
      simp only [Finset.mem_insert]
      rintro (rfl | h2)
      · exact hne rfl
      · exact ht h2
    obtain ⟨h1, h2, h3, h4⟩ := ih hfalse hinv' ht'
    refine ⟨?_, ?_, h3, h4⟩
    · intro w hw
      rcases List.mem_cons.mp hw with rfl | hw2
      · exact h2 (Finset.mem_insert_self _ _)
      · exact h1 w (List.mem_append_right _ hw2)
    · exact fun x hx => h2 (Finset.mem_insert_of_mem hx)

/-- C2: `wouldCreateCycle(fromId, toId)` is `true` iff a path from `toId`
to `fromId` already exists through the `dependencies` edges; any pair with
no such path (including unknown ids) is reported as safe. -/
theorem wouldCreateCycle_iff (ms : List Milestone) (fromId toId : String)
    (hnd : (ms.map (fun mm => mm.id)).Nodup) :
    wouldCreateCycle ms fromId toId = true ↔ Reaches ms toId fromId := by
  constructor
  · intro h
    obtain ⟨s, hs, hr⟩ := hasPathDFS_sound ms fromId [toId] ∅ h
    rw [List.mem_singleton] at hs
    rw [hs] at hr
    exact hr
  · intro hr
    by_contra hfalse
    have hf : (hasPathDFS ms fromId [toId] ∅).1 = false := by
      have : ¬ ((hasPathDFS ms fromId [toId] ∅).1 = true) := hfalse
      exact Bool.not_eq_true _ ▸ (Bool.eq_false_iff.mpr (fun hb => this hb))
    obtain ⟨h1, h2, h3, h4⟩ := hasPathDFS_false_inv ms fromId hnd [toId] ∅ hf
      (by intro x hx; simp at hx) (Finset.not_mem_empty _)
    have hmem : ∀ y, Reaches ms toId y →
        y ∈ (hasPathDFS ms fromId [toId] ∅).2 := by
      intro y hy
      induction hy with
      | refl => exact h1 toId (List.mem_singleton.mpr rfl)
      | tail hr2 hstep ih => exact h4 _ ih _ hstep
    exact h3 (hmem fromId hr)

/-- Witness for C2 at a concrete input. -/
theorem wouldCreateCycle_iff_witness :
    ((msPair.map (fun mm => mm.id)).Nodup)
      ∧ (wouldCreateCycle msPair "b" "a" = true ↔ Reaches msPair "a" "b") :=
  ⟨by decide, wouldCreateCycle_iff msPair "b" "a" (by decide)⟩

/-! ## C1: cascading updates cover exactly the transitive dependents -/

lemma cascadeDFS_nil (ms : List Milestone) (diff : ℚ)
    (u : List DependencyUpdate) (v : Finset String) :
    cascadeDFS ms diff [] u v = (u, v) := by
  simp [cascadeDFS]

lemma cascadeDFS_cons_mem {ms : List Milestone} {diff : ℚ} {mid : String}
    {rest : List String} {u : List DependencyUpdate} {v : Finset String}
    (hv : mid ∈ v) :
    cascadeDFS ms diff (mid :: rest) u v = cascadeDFS ms diff rest u v := by
  simp only [cascadeDFS]
  rw [dif_pos hv]

lemma cascadeDFS_cons_none {ms : List Milestone} {diff : ℚ} {mid : String}
    {rest : List String} {u : List DependencyUpdate} {v : Finset String}
    (hv : mid ∉ v) (hf : findMilestone ms mid = none) :
    cascadeDFS ms diff (mid :: rest) u v
      = cascadeDFS ms diff rest u (insert mid v) := by
  simp only [cascadeDFS]
  rw [dif_neg hv]
  split
  · rfl
  · next m' heq =>
    rw [hf] at heq
    exact Option.noConfusion heq

lemma cascadeDFS_cons_some {ms : List Milestone} {diff : ℚ} {mid : String}
    {m : Milestone} {rest : List String} {u : List DependencyUpdate}
    {v : Finset String} (hv : mid ∉ v) (hf : findMilestone ms mid = some m) :
    cascadeDFS ms diff (mid :: rest) u v
      = cascadeDFS ms diff (findDependentMilestones ms mid ++ rest)
          (u ++ [⟨mid, m.date + diff, "Dependency cascade"⟩])
          (insert mid v) := by
  simp only [cascadeDFS]
  rw [dif_neg hv]
  split
  · next heq =>
    rw [hf] at heq
    exact Option.noConfusion heq
  · next m' heq =>
    rw [hf] at heq
    injection heq with h2
    rw [h2]

lemma cascadeDFS_visited_mono (ms : List Milestone) (diff : ℚ) :
    ∀ stack u v, v ⊆ (cascadeDFS ms diff stack u v).2 := by
  intro stack u v
  induction stack, u, v using cascadeDFS.induct ms diff with
  | case1 u v =>
    rw [cascadeDFS_nil]
  | case2 mid rest u v hv ih =>
    rw [cascadeDFS_cons_mem hv]
    exact ih
  | case3 mid rest u v hv hf ih =>
    rw [cascadeDFS_cons_none hv hf]
    exact fun x hx => ih (Finset.mem_insert_of_mem hx)
  | case4 mid rest u v hv m hf ih =>
    rw [cascadeDFS_cons_some hv hf]
    exact fun x hx => ih (Finset.mem_insert_of_mem hx)

lemma cascadeDFS_stack_visited (ms : List Milestone) (diff : ℚ) :
    ∀ stack u v, ∀ x ∈ stack, x ∈ (cascadeDFS ms diff stack u v).2 := by
  intro stack u v
  induction stack, u, v using cascadeDFS.induct ms diff with
  | case1 u v =>
    intro x hx
    simp at hx
  | case2 mid rest u v hv ih =>
    rw [cascadeDFS_cons_mem hv]
    intro x hx
    rcases List.mem_cons.mp hx with rfl | hx2
    · exact cascadeDFS_visited_mono ms diff rest u v hv
    · exact ih x hx2
  | case3 mid rest u v hv hf ih =>
    rw [cascadeDFS_cons_none hv hf]
    intro x hx
    rcases List.mem_cons.mp hx with rfl | hx2
    · exact cascadeDFS_visited_mono ms diff rest u _
        (Finset.mem_insert_self _ _)
    · exact ih x hx2
  | case4 mid rest u v hv m hf ih =>
    rw [cascadeDFS_cons_some hv hf]
    intro x hx
    rcases List.mem_cons.mp hx with rfl | hx2
    · exact cascadeDFS_visited_mono ms diff _ _ _
        (Finset.mem_insert_self _ _)
    · exact ih x (List.mem_append_right _ hx2)

lemma cascadeDFS_closure (ms : List Milestone) (diff : ℚ) :
    ∀ stack u v, (∀ x ∈ stack, ∃ m ∈ ms, m.id = x) →
      ∀ x ∈ (cascadeDFS ms diff stack u v).2, x ∉ v →
        ∀ y, DependentStep ms x y → y ∈ (cascadeDFS ms diff stack u v).2 := by
  intro stack u v
  induction stack, u, v using cascadeDFS.induct ms diff with
  | case1 u v =>
    intro _ x hx hxv
    rw [cascadeDFS_nil] at hx
    exact absurd hx hxv
  | case2 mid rest u v hv ih =>
    intro hstack
    rw [cascadeDFS_cons_mem hv]
    exact ih (fun x hx => hstack x (List.mem_cons_of_mem _ hx))
  | case3 mid rest u v hv hf ih =>
    intro hstack
    obtain ⟨m, hm, hid⟩ := hstack mid (List.mem_cons_self _ _)
    exact absurd hid (findMilestone_none hf m hm)
  | case4 mid rest u v hv m hf ih =>
    intro hstack
    rw [cascadeDFS_cons_some hv hf]
    have hstack' : ∀ x ∈ findDependentMilestones ms mid ++ rest,
        ∃ m2 ∈ ms, m2.id = x := by
      intro x hx
      rcases List.mem_append.mp hx with hx1 | hx2
      · exact target_mem_ids_of_dependentStep
          (mem_findDependentMilestones.mp hx1)
      · exact hstack x (List.mem_cons_of_mem _ hx2)
    intro x hx hxv y hxy
    rcases eq_or_ne x mid with rfl | hxmid
    · have hy : y ∈ findDependentMilestones ms x ++ rest :=
        List.mem_append_left _ (mem_findDependentMilestones.mpr hxy)
      exact cascadeDFS_stack_visited ms diff _ _ _ y hy
    · have hxv' : x ∉ insert mid v := by
        simp only [Finset.mem_insert]
        rintro (rfl | h2)
        · exact hxmid rfl
        · exact hxv h2
      exact ih hstack' x hx hxv' y hxy

lemma cascadeDFS_visited_sound (ms : List Milestone) (diff : ℚ)
    (R : String → Prop) (hR : ∀ x y, R x → DependentStep ms x y → R y) :
    ∀ stack u v, (∀ x ∈ stack, R x) → (∀ x ∈ v, R x) →
      ∀ y ∈ (cascadeDFS ms diff stack u v).2, R y := by
  intro stack u v
  induction stack, u, v using cascadeDFS.induct ms diff with
  | case1 u v =>
    intro _ hvR y hy
    rw [cascadeDFS_nil] at hy
    exact hvR y hy
  | case2 mid rest u v hv ih =>
    intro hstack hvR
    rw [cascadeDFS_cons_mem hv]
    exact ih (fun x hx => hstack x (List.mem_cons_of_mem _ hx)) hvR
  | case3 mid rest u v hv hf ih =>
    intro hstack hvR
    rw [cascadeDFS_cons_none hv hf]
    refine ih (fun x hx => hstack x (List.mem_cons_of_mem _ hx)) ?_
    intro x hx
    rcases Finset.mem_insert.mp hx with rfl | hx2
    · exact hstack x (List.mem_cons_self _ _)
    · exact hvR x hx2
  | case4 mid rest u v hv m hf ih =>
    intro hstack hvR
    rw [cascadeDFS_cons_some hv hf]
    have hmid : R mid := hstack mid (List.mem_cons_self _ _)
    refine ih ?_ ?_
    · intro x hx
      rcases List.mem_append.mp hx with hx1 | hx2
      · exact hR mid x hmid (mem_findDependentMilestones.mp hx1)
      · exact hstack x (List.mem_cons_of_mem _ hx2)
    · intro x hx
      rcases Finset.mem_insert.mp hx with rfl | hx2
      · exact hmid
      · exact hvR x hx2

lemma cascadeDFS_updates_iff (ms : List Milestone) (diff : ℚ) :
    ∀ stack u v, (∀ x ∈ stack, ∃ m ∈ ms, m.id = x) →
      ∀ y, (∃ upd ∈ (cascadeDFS ms diff stack u v).1, upd.milestoneId = y)
        ↔ ((∃ upd ∈ u, upd.milestoneId = y)
            ∨ (y ∈ (cascadeDFS ms diff stack u v).2 ∧ y ∉ v)) := by
  intro stack u v
  induction stack, u, v using cascadeDFS.induct ms diff with
  | case1 u v =>
    intro _ y
    rw [cascadeDFS_nil]
    constructor
    · exact fun h => Or.inl h
    · rintro (h | ⟨hy, hyv⟩)
      · exact h
      · exact absurd hy hyv
  | case2 mid rest u v hv ih =>
    intro hstack y
    rw [cascadeDFS_cons_mem hv]
    exact ih (fun x hx => hstack x (List.mem_cons_of_mem _ hx)) y
  | case3 mid rest u v hv hf ih =>
    intro hstack
    obtain ⟨m, hm, hid⟩ := hstack mid (List.mem_cons_self _ _)
    exact absurd hid (findMilestone_none hf m hm)
  | case4 mid rest u v hv m hf ih =>
    intro hstack y
    rw [cascadeDFS_cons_some hv hf]
    have hstack' : ∀ x ∈ findDependentMilestones ms mid ++ rest,
        ∃ m2 ∈ ms, m2.id = x := by
      intro x hx
      rcases List.mem_append.mp hx with hx1 | hx2
      · exact target_mem_ids_of_dependentStep
          (mem_findDependentMilestones.mp hx1)
      · exact hstack x (List.mem_cons_of_mem _ hx2)
    rw [ih hstack' y]
    have hmidvis : mid ∈ (cascadeDFS ms diff
        (findDependentMilestones ms mid ++ rest)
        (u ++ [⟨mid, m.date + diff, "Dependency cascade"⟩])
        (insert mid v)).2 :=
      cascadeDFS_visited_mono ms diff _ _ _ (Finset.mem_insert_self _ _)
    constructor
    · rintro (⟨upd, hupd, rfl⟩ | ⟨hy, hyv⟩)
      · rcases List.mem_append.mp hupd with hu1 | hu2
        · exact Or.inl ⟨upd, hu1, rfl⟩
        · have : upd = ⟨mid, m.date + diff, "Dependency cascade"⟩ := by
            simpa using hu2
          subst this
          exact Or.inr ⟨hmidvis, hv⟩
      · have hyv2 : y ∉ v := fun h2 => hyv (Finset.mem_insert_of_mem h2)
        exact Or.inr ⟨hy, hyv2⟩
    · rintro (⟨upd, hupd, rfl⟩ | ⟨hy, hyv⟩)
      · exact Or.inl ⟨upd, List.mem_append_left _ hupd, rfl⟩
      · rcases eq_or_ne y mid with rfl | hymid
        · exact Or.inl ⟨⟨y, m.date + diff, "Dependency cascade"⟩,
            List.mem_append_right _ (List.mem_singleton.mpr rfl), rfl⟩
        · have : y ∉ insert mid v := by
            simp only [Finset.mem_insert]
            rintro (rfl | h2)
            · exact hymid rfl
            · exact hyv h2
          exact Or.inr ⟨hy, this⟩

lemma cascadeDFS_updates_nodup (ms : List Milestone) (diff : ℚ) :
    ∀ stack u v,
      ((u.map (fun upd => upd.milestoneId)).Nodup) →
      (∀ upd ∈ u, upd.milestoneId ∈ v) →
      (((cascadeDFS ms diff stack u v).1.map
          (fun upd => upd.milestoneId)).Nodup)
        ∧ ∀ upd ∈ (cascadeDFS ms diff stack u v).1,
            upd.milestoneId ∈ (cascadeDFS ms diff stack u v).2 := by
  intro stack u v
  induction stack, u, v using cascadeDFS.induct ms diff with
  | case1 u v =>
    intro hnd hvis
    rw [cascadeDFS_nil]
    exact ⟨hnd, hvis⟩
  | case2 mid rest u v hv ih =>
    intro hnd hvis
    rw [cascadeDFS_cons_mem hv]
    exact ih hnd hvis
  | case3 mid rest u v hv hf ih =>
    intro hnd hvis
    rw [cascadeDFS_cons_none hv hf]
    exact ih hnd (fun upd hupd => Finset.mem_insert_of_mem (hvis upd hupd))
  | case4 mid rest u v hv m hf ih =>
    intro hnd hvis
    rw [cascadeDFS_cons_some hv hf]
    refine ih ?_ ?_
    · rw [List.map_append]
      apply List.Nodup.append hnd (by simp)
      intro x hx hx2
      simp only [List.map_cons, List.map_nil, List.mem_singleton] at hx2
      obtain ⟨upd, hupd, rfl⟩ := List.mem_map.mp hx
      have hmidv : mid ∈ v := by
        rw [← hx2]
        exact hvis upd hupd
      exact hv hmidv
    · intro upd hupd
      rcases List.mem_append.mp hupd with hu1 | hu2
      · exact Finset.mem_insert_of_mem (hvis upd hu1)
      · have : upd = ⟨mid, m.date + diff, "Dependency cascade"⟩ := by
          simpa using hu2
        subst this
        exact Finset.mem_insert_self _ _

lemma cascadeDFS_dates (ms : List Milestone) (diff : ℚ) :
    ∀ stack u v, ∀ upd ∈ (cascadeDFS ms diff stack u v).1,
      upd ∈ u ∨ ∃ m, findMilestone ms upd.milestoneId = some m
        ∧ upd.newDate = m.date + diff := by
  intro stack u v
  induction stack, u, v using cascadeDFS.induct ms diff with
  | case1 u v =>
    intro upd hupd
    rw [cascadeDFS_nil] at hupd
    exact Or.inl hupd
  | case2 mid rest u v hv ih =>
    intro upd hupd
    rw [cascadeDFS_cons_mem hv] at hupd
    exact ih upd hupd
  | case3 mid rest u v hv hf ih =>
    intro upd hupd
    rw [cascadeDFS_cons_none hv hf] at hupd
    exact ih upd hupd
  | case4 mid rest u v hv m hf ih =>
    intro upd hupd
    rw [cascadeDFS_cons_some hv hf] at hupd
    rcases ih upd hupd with h | h
    · rcases List.mem_append.mp h with hu1 | hu2
      · exact Or.inl hu1
      · have : upd = ⟨mid, m.date + diff, "Dependency cascade"⟩ := by
          simpa using hu2
        subst this
        exact Or.inr ⟨m, hf, rfl⟩
    · exact Or.inr h

lemma transDependent_target_ids {ms : List Milestone} {a x : String}
    (h : TransDependent ms a x) : ∃ m ∈ ms, m.id = x := by
  induction h with
  | single h1 => exact target_mem_ids_of_dependentStep h1
  | tail _ h1 _ => exact target_mem_ids_of_dependentStep h1

/-- C1: `calculateCascadingUpdates` proposes exactly one update for every
transitive dependent of the changed milestone (its date shifted by exactly
the date delta) and none for any other milestone. -/
theorem cascadingUpdates_closure (ms : List Milestone) (mid : String)
    (newDate : ℚ) (m₀ : Milestone)
    (hnd : (ms.map (fun mm => mm.id)).Nodup)
    (h₀ : findMilestone ms mid = some m₀) :
    (((calculateCascadingUpdates ms mid newDate).map
        (fun u => u.milestoneId)).Nodup)
      ∧ (∀ y, (∃ u ∈ calculateCascadingUpdates ms mid newDate,
            u.milestoneId = y) ↔ TransDependent ms mid y)
      ∧ (∀ u ∈ calculateCascadingUpdates ms mid newDate, ∀ m' ∈ ms,
            m'.id = u.milestoneId
              → u.newDate = m'.date + (newDate - m₀.date)) := by
  have hunfold : calculateCascadingUpdates ms mid newDate
      = (cascadeDFS ms (newDate - m₀.date)
          (findDependentMilestones ms mid) [] ∅).1 := by
    simp [calculateCascadingUpdates, h₀]
  have hstack0 : ∀ x ∈ findDependentMilestones ms mid, ∃ m ∈ ms, m.id = x :=
    fun x hx =>
      target_mem_ids_of_dependentStep (mem_findDependentMilestones.mp hx)
  refine ⟨?_, ?_, ?_⟩
  · rw [hunfold]
    exact (cascadeDFS_updates_nodup ms (newDate - m₀.date)
      (findDependentMilestones ms mid) [] ∅ (by simp) (by simp)).1
  · intro y
    rw [hunfold]
    rw [cascadeDFS_updates_iff ms (newDate - m₀.date)
      (findDependentMilestones ms mid) [] ∅ hstack0 y]
    have hvis : y ∈ (cascadeDFS ms (newDate - m₀.date)
        (findDependentMilestones ms mid) [] ∅).2 ↔ TransDependent ms mid y := by
      constructor
      · intro hy
        refine cascadeDFS_visited_sound ms (newDate - m₀.date)
          (TransDependent ms mid)
          (fun a b ha hab => Relation.TransGen.tail ha hab) _ _ _ ?_ ?_ y hy
        · intro x hx
          exact Relation.TransGen.single (mem_findDependentMilestones.mp hx)
        · intro x hx
          exact absurd hx (Finset.not_mem_empty x)
      · intro hy
        induction hy with
        | single h1 =>
          exact cascadeDFS_stack_visited ms (newDate - m₀.date) _ _ _ _
            (mem_findDependentMilestones.mpr h1)
        | tail hpath h1 ih =>
          rename_i b c
          obtain ⟨mb, hmb, hidb⟩ := transDependent_target_ids hpath
          exact cascadeDFS_closure ms (newDate - m₀.date) _ _ _ hstack0 b ih
            (Finset.not_mem_empty b) c h1
    constructor
    · rintro (⟨upd, hupd, _⟩ | ⟨hy, _⟩)
      · simp at hupd
      · exact hvis.mp hy
    · intro hy
      exact Or.inr ⟨hvis.mpr hy, Finset.not_mem_empty y⟩
  · intro u hu m' hm' hid'
    rw [hunfold] at hu
    rcases cascadeDFS_dates ms (newDate - m₀.date) _ _ _ u hu with h | ⟨m2, hf2, hd2⟩
    · simp at h
    · have : findMilestone ms u.milestoneId = some m' := by
        rw [← hid']
        exact findMilestone_eq_of_nodup hnd hm'
      rw [hf2] at this
      injection this with h3
      rw [hd2, h3]

/-! ## C7: generated milestone lists satisfy the graph invariants -/

lemma forwardDeps_snoc {ctx : List Milestone} {newM : Milestone}
    (hctx : ForwardDeps ctx)
    (hnew : ∀ d ∈ newM.dependencies, ∃ j, ∃ hj : j < ctx.length,
        (ctx.get ⟨j, hj⟩).id = d ∧ (ctx.get ⟨j, hj⟩).date ≤ newM.date) :
    ForwardDeps (ctx ++ [newM]) := by
  intro k hk d hd
  have hlen : (ctx ++ [newM]).length = ctx.length + 1 := by simp
  rcases Nat.lt_or_ge k ctx.length with hlt | hge
  · have hget : (ctx ++ [newM]).get ⟨k, hk⟩ = ctx.get ⟨k, hlt⟩ :=
      List.get_append_left _ _ hlt
    rw [hget] at hd ⊢
    obtain ⟨j, hj, hjk, hid, hdate⟩ := hctx k hlt d hd
    have hj' : j < (ctx ++ [newM]).length := by
      rw [hlen]
      omega
    refine ⟨j, hj', hjk, ?_, ?_⟩
    · rw [List.get_append_left _ _ hj]
      exact hid
    · rw [List.get_append_left _ _ hj]
      exact hdate
  · have hkeq : k = ctx.length := by
      rw [hlen] at hk
      omega
    have hget : (ctx ++ [newM]).get ⟨k, hk⟩ = newM := by
      rw [List.get_eq_getElem]
      exact List.getElem_concat_length ctx newM k hkeq _
    rw [hget] at hd ⊢
    obtain ⟨j, hj, hid, hdate⟩ := hnew d hd
    have hj' : j < (ctx ++ [newM]).length := by
      rw [hlen]
      omega
    refine ⟨j, hj', by omega, ?_, ?_⟩
    · rw [List.get_append_left _ _ hj]
      exact hid
    · rw [List.get_append_left _ _ hj]
      exact hdate

lemma depMap_invariant_snoc {R : ℚ} {ctx : List Milestone} {newM : Milestone}
    {depMap : List (String × String)} {earlier : List MilestoneTemplate}
    {t : MilestoneTemplate}
    (hdm : ∀ dt id2, depMap.lookup dt = some id2 →
        ∃ j, ∃ hj : j < ctx.length, (ctx.get ⟨j, hj⟩).id = id2
          ∧ ∃ e ∈ earlier, e.title = dt
            ∧ (ctx.get ⟨j, hj⟩).date = R - e.daysBeforeRelease * 86400000)
    {nid : String} (hid0 : newM.id = nid)
    (hdate : newM.date = R - t.daysBeforeRelease * 86400000) :
    ∀ dt id2, ((t.title, nid) :: depMap).lookup dt = some id2 →
      ∃ j, ∃ hj : j < (ctx ++ [newM]).length,
        ((ctx ++ [newM]).get ⟨j, hj⟩).id = id2
          ∧ ∃ e ∈ earlier ++ [t], e.title = dt
            ∧ ((ctx ++ [newM]).get ⟨j, hj⟩).date
                = R - e.daysBeforeRelease * 86400000 := by
  intro dt id2 hlook
  have hlast : ∀ (hl : ctx.length < (ctx ++ [newM]).length),
      (ctx ++ [newM]).get ⟨ctx.length, hl⟩ = newM := by
    intro hl
    rw [List.get_eq_getElem]
    exact List.getElem_concat_length ctx newM ctx.length rfl _
  simp only [List.lookup] at hlook
  cases hbe : (dt == t.title) with
  | true =>
    rw [hbe] at hlook
    simp only [] at hlook
    injection hlook with h2
    have hdt : dt = t.title := beq_iff_eq.mp hbe
    have hl : ctx.length < (ctx ++ [newM]).length := by simp
    refine ⟨ctx.length, hl, ?_, t, List.mem_append_right _ (by simp),
      hdt.symm, ?_⟩
    · rw [hlast hl, hid0, ← h2]
    · rw [hlast hl, hdate]
  | false =>
    rw [hbe] at hlook
    simp only [] at hlook
    obtain ⟨j, hj, hid, e, he, htitle, hdate2⟩ := hdm dt id2 hlook
    have hj' : j < (ctx ++ [newM]).length := by
      simp only [List.length_append, List.length_cons, List.length_nil]
      omega
    refine ⟨j, hj', ?_, e, List.mem_append_left _ he, htitle, ?_⟩
    · rw [List.get_append_left _ _ hj]
      exact hid
    · rw [List.get_append_left _ _ hj]
      exact hdate2

lemma genAux_forward (pid : String) (now R maxD : ℚ) (total : ℕ) :
    ∀ (ts : List MilestoneTemplate) (index : ℕ)
      (depMap : List (String × String)) (earlier : List MilestoneTemplate)
      (ctx : List Milestone),
      ForwardDeps ctx →
      (∀ dt id2, depMap.lookup dt = some id2 →
        ∃ j, ∃ hj : j < ctx.length, (ctx.get ⟨j, hj⟩).id = id2
          ∧ ∃ e ∈ earlier, e.title = dt
            ∧ (ctx.get ⟨j, hj⟩).date = R - e.daysBeforeRelease * 86400000) →
      templatesOkayAux earlier ts = true →
      ForwardDeps (ctx ++ genAux pid now R maxD total ts index depMap) := by
  intro ts
  induction ts with
  | nil =>
    intro index depMap earlier ctx hctx _ _
    simpa [genAux] using hctx
  | cons t rest ih =>
    intro index depMap earlier ctx hctx hdm hok
    simp only [templatesOkayAux, Bool.and_eq_true] at hok
    have hok1 : ∀ e ∈ earlier, ∀ dt ∈ t.dependencies, e.title = dt →
        t.daysBeforeRelease ≤ e.daysBeforeRelease := by
      intro e he dt hdt htitle
      have ha := (List.all_eq_true.mp hok.1) e he
      have hb := (List.all_eq_true.mp ha) dt hdt
      simp only [Bool.or_eq_true, Bool.not_eq_true', beq_eq_false_iff_ne,
        ne_eq, decide_eq_true_eq] at hb
      rcases hb with hb | hb
      · exact absurd htitle hb
      · exact hb
    simp only [genAux]
    rw [List.append_cons]
    refine ih _ _ (earlier ++ [t]) _ ?_ ?_ hok.2
    · apply forwardDeps_snoc hctx
      intro d hd
      simp only [List.mem_filterMap] at hd
      obtain ⟨dt, hdt, hlook⟩ := hd
      have hlook2 : depMap.lookup dt = some d := by
        cases hcase : List.lookup dt depMap with
        | none =>
          rw [hcase] at hlook
          exact Option.noConfusion hlook
        | some x =>
          rw [hcase] at hlook
          injection hlook with h2
          rw [h2]
      obtain ⟨j, hj, hid, e, he, htitle, hdate⟩ := hdm dt d hlook2
      refine ⟨j, hj, hid, ?_⟩
      rw [hdate]
      show R - e.daysBeforeRelease * 86400000
        ≤ R - t.daysBeforeRelease * 86400000
      have hmul := mul_le_mul_of_nonneg_right (hok1 e he dt hdt htitle)
        (by norm_num : (0:ℚ) ≤ 86400000)
      linarith
    · refine depMap_invariant_snoc hdm ?_ ?_ <;> rfl

/-- C7: for every project type, release date and project id, the generated
milestone list has every dependency id referring to a strictly earlier
milestone in the list (so the relation is acyclic with no dangling
references), and every dependency's date is at most its dependent's date. -/
theorem generateMilestones_graphInvariants (pt : ProjectType) (R : ℚ)
    (pid : String) (now : ℚ) :
    ForwardDeps (generateMilestones pt R pid now) := by
  have h := genAux_forward pid now R
    (((MILESTONE_TEMPLATES pt).map (fun t => t.daysBeforeRelease)).foldr max 0)
    (MILESTONE_TEMPLATES pt).length (MILESTONE_TEMPLATES pt) 0 [] [] []
    (by intro k hk; simp at hk)
    (by intro dt id2 hcontra; simp [List.lookup] at hcontra)
    (by cases pt <;> decide)
  simpa [generateMilestones] using h

/-! ## C8: timeline bounds of a generated album project -/

lemma foldl_min_le_init (l : List ℚ) : ∀ a : ℚ, l.foldl min a ≤ a := by
  induction l with
  | nil => intro a; exact le_refl a
  | cons x xs ih => intro a; exact le_trans (ih (min a x)) (min_le_left a x)

lemma le_foldl_max_init (l : List ℚ) : ∀ a : ℚ, a ≤ l.foldl max a := by
  induction l with
  | nil => intro a; exact le_refl a
  | cons x xs ih => intro a; exact le_trans (le_max_left a x) (ih (max a x))

lemma le_foldl_max_of_mem {x : ℚ} (l : List ℚ) :
    ∀ a : ℚ, x ∈ l → x ≤ l.foldl max a := by
  induction l with
  | nil => intro a hx; simp at hx
  | cons y ys ih =>
    intro a hx
    rcases List.mem_cons.mp hx with rfl | h2
    · exact le_trans (le_max_right a x) (le_foldl_max_init ys (max a x))
    · exact ih (max a y) h2

lemma foldl_min_le_foldl_max (l : List ℚ) (a : ℚ) :
    l.foldl min a ≤ l.foldl max a :=
  le_trans (foldl_min_le_init l a) (le_foldl_max_init l a)

/-- C8: composing `generateMilestones 'album'` with `calculateTimelineBounds`
yields an end at or after the release date and a start at or before the
release date minus the largest days-before-release offset of the album
templates. -/
theorem album_timelineBounds (R : ℚ) (pid : String) (now tnow : ℚ) :
    R ≤ (calculateTimelineBounds tnow
          (generateMilestones ProjectType.album R pid now)).2
      ∧ (calculateTimelineBounds tnow
          (generateMilestones ProjectType.album R pid now)).1
        ≤ R - (((MILESTONE_TEMPLATES ProjectType.album).map
            (fun t => t.daysBeforeRelease)).foldr max 0) * 86400000 := by
  have hmax : (((MILESTONE_TEMPLATES ProjectType.album).map
      (fun t => t.daysBeforeRelease)).foldr max 0) = 180 := by decide
  rw [hmax]
  have hdates : (generateMilestones ProjectType.album R pid now).map
      (fun m => m.date)
      = [R - 180 * 86400000, R - 150 * 86400000, R - 90 * 86400000,
        R - 60 * 86400000, R - 45 * 86400000, R - 30 * 86400000,
        R - 21 * 86400000, R - 14 * 86400000, R - 0 * 86400000] := by
    simp [generateMilestones, genAux, MILESTONE_TEMPLATES]
  simp only [calculateTimelineBounds, hdates]
  have hminle : ([R - 150 * 86400000, R - 90 * 86400000,
      R - 60 * 86400000, R - 45 * 86400000, R - 30 * 86400000,
      R - 21 * 86400000, R - 14 * 86400000, R - 0 * 86400000]).foldl min
        (R - 180 * 86400000) ≤ R - 180 * 86400000 :=
    foldl_min_le_init _ _
  have hmaxge : (R - 0 * 86400000) ≤ ([R - 150 * 86400000, R - 90 * 86400000,
      R - 60 * 86400000, R - 45 * 86400000, R - 30 * 86400000,
      R - 21 * 86400000, R - 14 * 86400000, R - 0 * 86400000]).foldl max
        (R - 180 * 86400000) :=
    le_foldl_max_of_mem _ _ (by simp)
  have hminmax : ([R - 150 * 86400000, R - 90 * 86400000,
      R - 60 * 86400000, R - 45 * 86400000, R - 30 * 86400000,
      R - 21 * 86400000, R - 14 * 86400000, R - 0 * 86400000]).foldl min
        (R - 180 * 86400000)
      ≤ ([R - 150 * 86400000, R - 90 * 86400000,
      R - 60 * 86400000, R - 45 * 86400000, R - 30 * 86400000,
      R - 21 * 86400000, R - 14 * 86400000, R - 0 * 86400000]).foldl max
        (R - 180 * 86400000) :=
    foldl_min_le_foldl_max _ _
  have h01 : (0.1 : ℚ) = 1 / 10 := by norm_num
  rw [h01]
  generalize hmx : List.foldl max (R - 180 * 86400000)
      [R - 150 * 86400000, R - 90 * 86400000, R - 60 * 86400000,
        R - 45 * 86400000, R - 30 * 86400000, R - 21 * 86400000,
        R - 14 * 86400000, R - 0 * 86400000] = mx at hmaxge hminmax ⊢
  generalize hmn : List.foldl min (R - 180 * 86400000)
      [R - 150 * 86400000, R - 90 * 86400000, R - 60 * 86400000,
        R - 45 * 86400000, R - 30 * 86400000, R - 21 * 86400000,
        R - 14 * 86400000, R - 0 * 86400000] = mn at hminle hminmax ⊢
  constructor
  · linarith
  · linarith

/-! ## C4: the structural critical path -/

lemma flp_mem {ms : List Milestone} {mid : String} {v : Finset String}
    (hv : mid ∈ v) : findLongestPath ms mid v = [] := by
  rw [findLongestPath, dif_pos hv]

lemma flp_none {ms : List Milestone} {mid : String} {v : Finset String}
    (hv : mid ∉ v) (hf : findMilestone ms mid = none) :
    findLongestPath ms mid v = [] := by
  rw [findLongestPath, dif_neg hv]
  split
  · rfl
  · next m' heq =>
    rw [hf] at heq
    exact Option.noConfusion heq

lemma flp_some {ms : List Milestone} {mid : String} {v : Finset String}
    {m : Milestone} (hv : mid ∉ v) (hf : findMilestone ms mid = some m) :
    findLongestPath ms mid v
      = mid :: longestSubPath ms m.dependencies (insert mid v) [] := by
  rw [findLongestPath, dif_neg hv]
  split
  · next heq =>
    rw [hf] at heq
    exact Option.noConfusion heq
  · next m' heq =>
    rw [hf] at heq
    injection heq with h2
    rw [h2]

lemma lsp_nil (ms : List Milestone) (v : Finset String) (best : List String) :
    longestSubPath ms [] v best = best := by
  rw [longestSubPath]

lemma lsp_cons (ms : List Milestone) (d : String) (rest : List String)
    (v : Finset String) (best : List String) :
    longestSubPath ms (d :: rest) v best
      = longestSubPath ms rest v
          (if best.length < (findLongestPath ms d v).length
            then findLongestPath ms d v else best) := by
  rw [longestSubPath]

lemma lsp_le (ms : List Milestone) :
    ∀ (deps : List String) (v : Finset String) (best : List String),
      best.length ≤ (longestSubPath ms deps v best).length := by
  intro deps
  induction deps with
  | nil =>
    intro v best
    rw [lsp_nil]
  | cons d rest ih =>
    intro v best
    rw [lsp_cons]
    refine le_trans ?_ (ih v _)
    split_ifs with h
    · omega
    · omega

lemma lsp_ge_flp (ms : List Milestone) :
    ∀ (deps : List String) (v : Finset String) (best : List String)
      (d : String), d ∈ deps →
      (findLongestPath ms d v).length ≤ (longestSubPath ms deps v best).length := by
  intro deps
  induction deps with
  | nil =>
    intro v best d hd
    simp at hd
  | cons d0 rest ih =>
    intro v best d hd
    rw [lsp_cons]
    rcases List.mem_cons.mp hd with rfl | hd2
    · refine le_trans ?_ (lsp_le ms rest v _)
      split_ifs with h
      · omega
      · omega
    · exact ih v _ d hd2

lemma lsp_cases (ms : List Milestone) :
    ∀ (deps : List String) (v : Finset String) (best : List String),
      longestSubPath ms deps v best = best
        ∨ ∃ d ∈ deps, longestSubPath ms deps v best = findLongestPath ms d v := by
  intro deps
  induction deps with
  | nil =>
    intro v best
    rw [lsp_nil]
    exact Or.inl rfl
  | cons d0 rest ih =>
    intro v best
    rw [lsp_cons]
    rcases ih v (if best.length < (findLongestPath ms d0 v).length
        then findLongestPath ms d0 v else best) with h | ⟨d, hd, h⟩
    · rw [h]
      split_ifs with hc
      · exact Or.inr ⟨d0, List.mem_cons_self _ _, rfl⟩
      · exact Or.inl rfl
    · exact Or.inr ⟨d, List.mem_cons_of_mem _ hd, h⟩

lemma mem_idsFinset_of_find {ms : List Milestone} {mid : String}
    {m : Milestone} (hf : findMilestone ms mid = some m) :
    mid ∈ idsFinset ms := by
  obtain ⟨hm, hid⟩ := findMilestone_some hf
  simp only [idsFinset, List.mem_toFinset, List.mem_map]
  exact ⟨m, hm, hid⟩

lemma card_sdiff_insert_lt {S v : Finset String} {mid : String}
    (hmid : mid ∈ S) (hv : mid ∉ v) :
    (S \ insert mid v).card + 1 = (S \ v).card := by
  have hset : S \ insert mid v = (S \ v).erase mid := by
    ext x
    simp only [Finset.mem_sdiff, Finset.mem_insert, Finset.mem_erase]
    tauto
  rw [hset]
  exact Finset.card_erase_add_one (Finset.mem_sdiff.mpr ⟨hmid, hv⟩)

lemma flp_props (ms : List Milestone) :
    ∀ n, ∀ mid (v : Finset String), (idsFinset ms \ v).card ≤ n →
      (findLongestPath ms mid v = []
          ∨ ∃ tail, findLongestPath ms mid v = mid :: tail)
        ∧ List.Chain' (Edge ms) (findLongestPath ms mid v)
        ∧ (∀ x ∈ findLongestPath ms mid v, ∃ m2 ∈ ms, m2.id = x) := by
  intro n
  induction n with
  | zero =>
    intro mid v hcard
    by_cases hv : mid ∈ v
    · rw [flp_mem hv]
      exact ⟨Or.inl rfl, List.chain'_nil, by simp⟩
    · cases hf : findMilestone ms mid with
      | none =>
        rw [flp_none hv hf]
        exact ⟨Or.inl rfl, List.chain'_nil, by simp⟩
      | some m =>
        exfalso
        have hmid := mem_idsFinset_of_find hf
        have hpos : 0 < (idsFinset ms \ v).card :=
          Finset.card_pos.mpr ⟨mid, Finset.mem_sdiff.mpr ⟨hmid, hv⟩⟩
        omega
  | succ n ih =>
    intro mid v hcard
    by_cases hv : mid ∈ v
    · rw [flp_mem hv]
      exact ⟨Or.inl rfl, List.chain'_nil, by simp⟩
    · cases hf : findMilestone ms mid with
      | none =>
        rw [flp_none hv hf]
        exact ⟨Or.inl rfl, List.chain'_nil, by simp⟩
      | some m =>
        rw [flp_some hv hf]
        obtain ⟨hm, hid⟩ := findMilestone_some hf
        have hcard' : (idsFinset ms \ insert mid v).card ≤ n := by
          have := card_sdiff_insert_lt (mem_idsFinset_of_find hf) hv
          omega
        rcases lsp_cases ms m.dependencies (insert mid v) [] with hlsp | ⟨d, hd, hlsp⟩
        · rw [hlsp]
          refine ⟨Or.inr ⟨[], rfl⟩, List.chain'_singleton _, ?_⟩
          intro x hx
          rw [List.mem_singleton] at hx
          rw [hx]
          exact ⟨m, hm, hid⟩
        · rw [hlsp]
          obtain ⟨hhead, hchain, hmem⟩ := ih d (insert mid v) hcard'
          refine ⟨Or.inr ⟨_, rfl⟩, ?_, ?_⟩
          · rcases hhead with hnil | ⟨tail, htl⟩
            · rw [hnil]
              exact List.chain'_singleton _
            · rw [htl]
              rw [htl] at hchain
              exact List.chain'_cons.mpr ⟨⟨m, hm, hid, hd⟩, hchain⟩
          · intro x hx
            rcases List.mem_cons.mp hx with rfl | hx2
            · exact ⟨m, hm, hid⟩
            · exact hmem x hx2

lemma chain'_transGen (R : String → String → Prop) (c : List String)
    (hc : List.Chain' R c) :
    ∀ j, ∀ hj : j < c.length, ∀ i, ∀ hi : i < c.length, i < j →
      Relation.TransGen R (c.get ⟨i, hi⟩) (c.get ⟨j, hj⟩) := by
  intro j
  induction j with
  | zero =>
    intro hj i hi hij
    exact absurd hij (Nat.not_lt_zero i)
  | succ k ih =>
    intro hj i hi hij
    have hk : k < c.length - 1 := by omega
    have hrel := List.chain'_iff_get.mp hc k hk
    rcases Nat.lt_or_ge i k with hik | hik
    · exact Relation.TransGen.tail (ih (by omega) i hi hik) hrel
    · have hieq : i = k := by omega
      subst hieq
      exact Relation.TransGen.single hrel

lemma chain_length_le (ms : List Milestone) (hacyc : AcyclicDeps ms)
    (c : List String) (hc : List.Chain' (Edge ms) c)
    (hmem : ∀ y ∈ c, y ∈ ms.map (fun m => m.id)) :
    c.length ≤ ms.length := by
  have hnodup : c.Nodup := by
    rw [List.nodup_iff_injective_get]
    intro a b hab
    by_contra hne
    have hvalne : a.val ≠ b.val := by
      intro hv
      exact hne (Fin.ext hv)
    rcases Nat.lt_or_ge a.val b.val with h | h
    · have := chain'_transGen (Edge ms) c hc b.val b.isLt a.val a.isLt h
      rw [hab] at this
      exact hacyc _ this
    · have hba : b.val < a.val := by omega
      have := chain'_transGen (Edge ms) c hc a.val a.isLt b.val b.isLt hba
      rw [hab] at this
      exact hacyc _ this
  have h1 : c.toFinset.card = c.length := List.toFinset_card_of_nodup hnodup
  have h2 : c.toFinset ⊆ (ms.map (fun m => m.id)).toFinset := by
    intro x hx
    rw [List.mem_toFinset] at hx ⊢
    exact hmem x hx
  have h3 := Finset.card_le_card h2
  have h4 : (ms.map (fun m => m.id)).toFinset.card
      ≤ (ms.map (fun m => m.id)).length := List.toFinset_card_le _
  simp only [List.length_map] at h4
  omega

lemma flp_ge_chain (ms : List Milestone)
    (hnd : (ms.map (fun m => m.id)).Nodup)
    (hacyc : AcyclicDeps ms) (hnod : NoDanglingDeps ms) :
    ∀ (c : List String), ∀ mid (v : Finset String),
      c.head? = some mid →
      List.Chain' (Edge ms) c →
      mid ∈ ms.map (fun m => m.id) →
      (∀ w ∈ v, ¬ Reaches ms mid w) →
      c.length ≤ (findLongestPath ms mid v).length := by
  intro c
  induction c with
  | nil =>
    intro mid v hh
    intro _ _ _
    simp at hh
  | cons x rest ih =>
    intro mid v hh hchain hmid hdisj
    have hx : x = mid := by simpa using hh
    subst hx
    have hvnot : x ∉ v := fun hxv => hdisj x hxv Relation.ReflTransGen.refl
    obtain ⟨m, hfind⟩ : ∃ m, findMilestone ms x = some m := by
      rw [List.mem_map] at hmid
      obtain ⟨m2, hm2, hid2⟩ := hmid
      exact findMilestone_isSome ⟨m2, hm2, hid2⟩
    rw [flp_some hvnot hfind]
    cases rest with
    | nil =>
      simp only [List.length_cons, List.length_nil]
      omega
    | cons y rest2 =>
      have hsplit := List.chain'_cons.mp hchain
      have hyd : y ∈ m.dependencies := (edge_iff_of_find hnd hfind y).mp hsplit.1
      have hymem : y ∈ ms.map (fun m => m.id) := by
        obtain ⟨m2, hm2, hid2, hdep2⟩ := hsplit.1
        exact hnod m2 hm2 y hdep2
      have hdisj' : ∀ w ∈ insert x v, ¬ Reaches ms y w := by
        intro w hw hr
        rcases Finset.mem_insert.mp hw with rfl | hw2
        · exact hacyc w (Relation.TransGen.head' hsplit.1 hr)
        · exact hdisj w hw2 (Relation.ReflTransGen.head hsplit.1 hr)
      have hlen := ih y (insert x v) rfl hsplit.2 hymem hdisj'
      have hlsp := lsp_ge_flp ms m.dependencies (insert x v) [] y hyd
      simp only [List.length_cons] at hlen ⊢
      omega

lemma chain_extend (ms : List Milestone) (hacyc : AcyclicDeps ms) :
    ∀ k, ∀ (c : List String) (x : String), c.head? = some x →
      List.Chain' (Edge ms) c →
      (∀ y ∈ c, y ∈ ms.map (fun m => m.id)) →
      ms.length + 1 - c.length ≤ k →
      ∃ e c2, c2.head? = some e ∧ List.Chain' (Edge ms) c2
        ∧ (∀ y ∈ c2, y ∈ ms.map (fun m => m.id))
        ∧ findDependentMilestones ms e = []
        ∧ c.length ≤ c2.length := by
  intro k
  induction k with
  | zero =>
    intro c x hh hchain hmem hbound
    exfalso
    have hle := chain_length_le ms hacyc c hchain hmem
    have hpos : 0 < c.length := by
      cases c
      · simp at hh
      · simp
    omega
  | succ k ih =>
    intro c x hh hchain hmem hbound
    cases hdep : findDependentMilestones ms x with
    | nil =>
      exact ⟨x, c, hh, hchain, hmem, hdep, le_refl _⟩
    | cons y ys =>
      have hystep : DependentStep ms x y := by
        apply mem_findDependentMilestones.mp
        rw [hdep]
        exact List.mem_cons_self _ _
      have hchain2 : List.Chain' (Edge ms) (y :: c) := by
        cases c with
        | nil => simp at hh
        | cons a t =>
          have hax : a = x := by simpa using hh
          subst hax
          exact List.chain'_cons.mpr ⟨hystep, hchain⟩
      have hymem : y ∈ ms.map (fun m => m.id) := by
        obtain ⟨m2, hm2, hid2, _⟩ := hystep
        rw [List.mem_map]
        exact ⟨m2, hm2, hid2⟩
      have hmem2 : ∀ z ∈ y :: c, z ∈ ms.map (fun m => m.id) := by
        intro z hz
        rcases List.mem_cons.mp hz with rfl | hz2
        · exact hymem
        · exact hmem z hz2
      have hbound2 : ms.length + 1 - (y :: c).length ≤ k := by
        simp only [List.length_cons]
        omega
      obtain ⟨e, c2, h1, h2, h3, h4, h5⟩ := ih (y :: c) y rfl hchain2 hmem2 hbound2
      refine ⟨e, c2, h1, h2, h3, h4, ?_⟩
      simp only [List.length_cons] at h5
      omega

lemma gcpAux_nil (ms : List Milestone) (v : Finset String)
    (best : List String) : getCriticalPathAux ms [] v best = best := rfl

lemma gcpAux_cons (ms : List Milestone) (n : String) (rest : List String)
    (v : Finset String) (best : List String) :
    getCriticalPathAux ms (n :: rest) v best
      = getCriticalPathAux ms rest
          (if n ∈ v then v
            else match findMilestone ms n with
              | none => v
              | some _ => insert n v)
          (if best.length < (findLongestPath ms n v).length
            then findLongestPath ms n v else best) := rfl

lemma gcpAux_ge_best (ms : List Milestone) :
    ∀ (nodes : List String) (v : Finset String) (best : List String),
      best.length ≤ (getCriticalPathAux ms nodes v best).length := by
  intro nodes
  induction nodes with
  | nil =>
    intro v best
    rw [gcpAux_nil]
  | cons n rest ih =>
    intro v best
    rw [gcpAux_cons]
    refine le_trans ?_ (ih _ _)
    split_ifs with h
    · omega
    · omega

lemma gcpAux_cases (ms : List Milestone) :
    ∀ (nodes : List String) (v : Finset String) (best : List String),
      getCriticalPathAux ms nodes v best = best
        ∨ ∃ e v2, getCriticalPathAux ms nodes v best
            = findLongestPath ms e v2 := by
  intro nodes
  induction nodes with
  | nil =>
    intro v best
    exact Or.inl rfl
  | cons n rest ih =>
    intro v best
    rw [gcpAux_cons]
    rcases ih (if n ∈ v then v
        else match findMilestone ms n with
          | none => v
          | some _ => insert n v)
        (if best.length < (findLongestPath ms n v).length
          then findLongestPath ms n v else best) with h | ⟨e, v2, h⟩
    · rw [h]
      split_ifs with hc
      · exact Or.inr ⟨n, v, rfl⟩
      · exact Or.inl rfl
    · exact Or.inr ⟨e, v2, h⟩

lemma gcpAux_max (ms : List Milestone)
    (hnd : (ms.map (fun m => m.id)).Nodup)
    (hacyc : AcyclicDeps ms) (hnod : NoDanglingDeps ms) :
    ∀ (nodes : List String) (v : Finset String) (best : List String),
      (∀ x ∈ nodes, x ∈ ms.map (fun m => m.id)
        ∧ findDependentMilestones ms x = []) →
      nodes.Nodup →
      (∀ w ∈ v, findDependentMilestones ms w = []) →
      (∀ x ∈ nodes, x ∉ v) →
      ∀ e ∈ nodes, ∀ c : List String, c.head? = some e →
        List.Chain' (Edge ms) c →
        c.length ≤ (getCriticalPathAux ms nodes v best).length := by
  intro nodes
  induction nodes with
  | nil =>
    intro v best _ _ _ _ e he
    simp at he
  | cons n rest ih =>
    intro v best hnodes hnodup hv hdisjnv e he c hh hchain
    rw [gcpAux_cons]
    have hnv : n ∉ v := hdisjnv n (List.mem_cons_self _ _)
    have hnids := (hnodes n (List.mem_cons_self _ _)).1
    obtain ⟨mn, hfindn⟩ : ∃ mn, findMilestone ms n = some mn := by
      rw [List.mem_map] at hnids
      obtain ⟨m2, hm2, hid2⟩ := hnids
      exact findMilestone_isSome ⟨m2, hm2, hid2⟩
    have hv' : (if n ∈ v then v
        else match findMilestone ms n with
          | none => v
          | some _ => insert n v) = insert n v := by
      rw [if_neg hnv, hfindn]
    rw [hv']
    have hvrest : ∀ w ∈ insert n v, findDependentMilestones ms w = [] := by
      intro w hw
      rcases Finset.mem_insert.mp hw with rfl | hw2
      · exact (hnodes w (List.mem_cons_self _ _)).2
      · exact hv w hw2
    have hnrest : n ∉ rest := (List.nodup_cons.mp hnodup).1
    have hrestdisj : ∀ x ∈ rest, x ∉ insert n v := by
      intro x hx
      simp only [Finset.mem_insert]
      rintro (rfl | hx2)
      · exact hnrest hx
      · exact hdisjnv x (List.mem_cons_of_mem _ hx) hx2
    rcases List.mem_cons.mp he with rfl | he2
    · have hdisj : ∀ w ∈ v, ¬ Reaches ms e w := by
        intro w hw hr
        rcases Relation.ReflTransGen.cases_tail hr with heq | ⟨q, _, hstep⟩
        · rw [heq] at hw
          exact hnv hw
        · obtain ⟨m3, hm3, hid3, hdep3⟩ := hstep
          have hdep4 : m3.id ∈ findDependentMilestones ms w :=
            mem_findDependentMilestones.mpr ⟨m3, hm3, rfl, hdep3⟩
          rw [hv w hw] at hdep4
          simp at hdep4
      have h1 := flp_ge_chain ms hnd hacyc hnod c e v hh hchain hnids hdisj
      have h2 : (findLongestPath ms e v).length
          ≤ (if best.length < (findLongestPath ms e v).length
              then findLongestPath ms e v else best).length := by
        split_ifs with hc
        · omega
        · omega
      have h3 := gcpAux_ge_best ms rest (insert e v)
        (if best.length < (findLongestPath ms e v).length
          then findLongestPath ms e v else best)
      omega
    · exact ih (insert n v) _
        (fun x hx => hnodes x (List.mem_cons_of_mem _ hx))
        (List.nodup_cons.mp hnodup).2 hvrest hrestdisj e he2 c hh hchain

/-- C4: for acyclic, dangling-free milestone sets `getCriticalPath` returns
a list whose consecutive elements are joined by direct dependency edges
(each earlier element a dependency of the next), and no chain of directly
dependency-linked milestones is longer. -/
theorem getCriticalPath_spec (ms : List Milestone)
    (hnd : (ms.map (fun m => m.id)).Nodup)
    (hacyc : AcyclicDeps ms) (hnod : NoDanglingDeps ms) :
    List.Chain' (fun a b => Edge ms b a) (getCriticalPath ms)
      ∧ ∀ c : List String, List.Chain' (Edge ms) c →
          (∀ x ∈ c, x ∈ ms.map (fun m => m.id)) →
          c.length ≤ (getCriticalPath ms).length := by
  have hunfold : getCriticalPath ms
      = (getCriticalPathAux ms ((ms.map (fun m => m.id)).filter
          (fun mid => (findDependentMilestones ms mid).length == 0))
          ∅ []).reverse := rfl
  constructor
  · rw [hunfold, List.chain'_reverse]
    show List.Chain' (Edge ms) _
    rcases gcpAux_cases ms ((ms.map (fun m => m.id)).filter
        (fun mid => (findDependentMilestones ms mid).length == 0)) ∅ []
      with h | ⟨e, v2, h⟩
    · rw [h]
      exact List.chain'_nil
    · rw [h]
      exact (flp_props ms (idsFinset ms \ v2).card e v2 (le_refl _)).2.1
  · intro c hchain hmem
    cases c with
    | nil => simp
    | cons x t =>
      obtain ⟨e, c2, h1, h2, h3, h4, h5⟩ := chain_extend ms hacyc
        (ms.length + 1) (x :: t) x rfl hchain hmem (by omega)
      have he2 : e ∈ c2 := by
        cases c2 with
        | nil => simp at h1
        | cons a t2 =>
          have ha : a = e := by simpa using h1
          exact List.mem_cons.mpr (Or.inl ha.symm)
      have hein : e ∈ (ms.map (fun m => m.id)).filter
          (fun mid => (findDependentMilestones ms mid).length == 0) := by
        rw [List.mem_filter]
        refine ⟨h3 e he2, ?_⟩
        rw [h4]
        rfl
      have hcond : ∀ y ∈ (ms.map (fun m => m.id)).filter
          (fun mid => (findDependentMilestones ms mid).length == 0),
          y ∈ ms.map (fun m => m.id) ∧ findDependentMilestones ms y = [] := by
        intro y hy
        rw [List.mem_filter] at hy
        refine ⟨hy.1, ?_⟩
        have := hy.2
        rw [beq_iff_eq] at this
        exact List.length_eq_zero.mp this
      have hnodup2 : ((ms.map (fun m => m.id)).filter
          (fun mid => (findDependentMilestones ms mid).length == 0)).Nodup :=
        hnd.filter _
      have hmax := gcpAux_max ms hnd hacyc hnod
        ((ms.map (fun m => m.id)).filter
          (fun mid => (findDependentMilestones ms mid).length == 0)) ∅ []
        hcond hnodup2 (by intro w hw; simp at hw)
        (by intro y _; exact Finset.not_mem_empty y) e hein c2 h1 h2
      rw [hunfold, List.length_reverse]
      omega

lemma edge_msPair_elim {u w : String} (h : Edge msPair u w) :
    u = "b" ∧ w = "a" := by
  obtain ⟨m, hm, hid, hdep⟩ := h
  simp only [msPair, List.mem_cons, List.not_mem_nil, or_false,
    List.mem_singleton] at hm
  rcases hm with rfl | rfl
  · simp [msA] at hdep
  · constructor
    · rw [← hid]
      rfl
    · simpa [msB] using hdep

lemma acyclic_msPair : AcyclicDeps msPair := by
  intro x h
  have hgen : ∀ a b : String, Relation.TransGen (Edge msPair) a b →
      a = "b" ∧ b = "a" := by
    intro a b hab
    induction hab with
    | single h1 => exact edge_msPair_elim h1
    | tail _ h1 ih =>
      have h2 := edge_msPair_elim h1
      rw [ih.2] at h2
      exact absurd h2.1 (by decide)
  obtain ⟨hb, ha⟩ := hgen x x h
  rw [hb] at ha
  exact absurd ha (by decide)

/-- Witness for C4 at a concrete input. -/
theorem getCriticalPath_spec_witness :
    List.Chain' (fun a b => Edge msPair b a) (getCriticalPath msPair)
      ∧ ∀ c : List String, List.Chain' (Edge msPair) c →
          (∀ x ∈ c, x ∈ msPair.map (fun m => m.id)) →
          c.length ≤ (getCriticalPath msPair).length :=
  getCriticalPath_spec msPair (by decide) acyclic_msPair
    (by unfold NoDanglingDeps; decide)

/-- Witness for C1 at a concrete input. -/
theorem cascadingUpdates_closure_witness :
    ((msPair.map (fun mm => mm.id)).Nodup)
      ∧ (findMilestone msPair "a" = some msA)
      ∧ ((((calculateCascadingUpdates msPair "a" 5).map
            (fun u => u.milestoneId)).Nodup)
        ∧ (∀ y, (∃ u ∈ calculateCascadingUpdates msPair "a" 5,
              u.milestoneId = y) ↔ TransDependent msPair "a" y)
        ∧ (∀ u ∈ calculateCascadingUpdates msPair "a" 5, ∀ m' ∈ msPair,
              m'.id = u.milestoneId
                → u.newDate = m'.date + (5 - msA.date))) :=
  ⟨by decide, by decide,
    cascadingUpdates_closure msPair "a" 5 msA (by decide) (by decide)⟩

end ReleaseCompass
